import Mathlib

set_option maxRecDepth 10000

/-!
Shallow embedding of the OCR subtitle stabilization and cleanup pipeline from
`src-tauri/src/tools/ocr/subtitles.rs`, together with proofs settling the
frozen claims about it.

Modelling conventions:
* Rust `f64` values (confidences, thresholds, fps) are modelled exactly by the
  unnormalized rational type `Q` below: every constant the code compares
  against (0.05, 0.005, 0.70, 1e-9, thresholds, confidences) is an exact
  decimal, and all arithmetic the claims exercise stays far from any binary
  rounding boundary, so exact rational arithmetic coincides with the `f64`
  computation on the inputs considered.  `Q.toRat` interprets a `Q` in `ℚ`;
  a well-formed real has a positive denominator (`Q.Pos`).
* Rust `u64`/`u32` are modelled as `ℕ`; `saturating_sub` is `Nat` subtraction.
  No claim depends on wrap-around at the 64-bit boundary, so `checked_add` is
  modelled as plain addition.
* Rust `String` text is modelled as `List Char` (Unicode scalars); Rust
  `str::contains` (byte substring search on UTF-8) coincides with contiguous
  sublist containment on the scalar sequence.
* `char::is_whitespace` / `to_lowercase` are modelled by `Char.isWhitespace` /
  `Char.toLower`, which agree with Rust on the ASCII/CJK texts involved here.
* The iteration order of the `HashMap` in `select_segment_text` (unspecified
  and randomized per process in Rust) is modelled by an explicit order
  parameter that permutes the canonical first-insertion grouping.
-/

/-- Exact rational model of an `f64` value: `num / den`, kept unnormalized so
that every operation is plain integer arithmetic.  All values built by the
pipeline have positive denominators. -/
structure Q where
  num : Int
  den : Nat
deriving DecidableEq, Repr

/-- Embed a natural number. -/
def qI (n : Nat) : Q := ⟨(n : Int), 1⟩

/-- Addition of exact rationals. -/
def Q.add (a b : Q) : Q := ⟨a.num * (b.den : Int) + b.num * (a.den : Int), a.den * b.den⟩

/-- Subtraction of exact rationals. -/
def Q.sub (a b : Q) : Q := ⟨a.num * (b.den : Int) - b.num * (a.den : Int), a.den * b.den⟩

/-- Multiplication of exact rationals. -/
def Q.mul (a b : Q) : Q := ⟨a.num * b.num, a.den * b.den⟩

/-- Division of exact rationals (the pipeline only ever divides by values with
nonzero numerator). -/
def Q.div (a b : Q) : Q :=
  if 0 ≤ b.num then ⟨a.num * (b.den : Int), a.den * b.num.toNat⟩
  else ⟨-(a.num * (b.den : Int)), a.den * (-b.num).toNat⟩

/-- Strict order, by cross multiplication (meaningful for positive
denominators). -/
def Q.blt (a b : Q) : Bool := a.num * (b.den : Int) < b.num * (a.den : Int)

/-- Non-strict order, by cross multiplication. -/
def Q.ble (a b : Q) : Bool := a.num * (b.den : Int) ≤ b.num * (a.den : Int)

/-- Semantic (value) equality, by cross multiplication. -/
def Q.beqSem (a b : Q) : Bool := a.num * (b.den : Int) = b.num * (a.den : Int)

/-- Model of `f64::max` (no NaN among modelled values). -/
def Q.maxQ (a b : Q) : Q := if Q.ble a b then b else a

/-- Model of `f64::min`. -/
def Q.minQ (a b : Q) : Q := if Q.ble a b then a else b

/-- Model of `f64::abs`. -/
def Q.absQ (a : Q) : Q := ⟨(a.num.natAbs : Int), a.den⟩

/-- Model of `value.ceil() as usize` for the nonnegative values the code feeds
it (negative values collapse to 0, matching the saturating cast). -/
def Q.ceilToNat (a : Q) : Nat := (a.num.toNat + a.den - 1) / a.den

/-- Model of `value.floor() as u64` for nonnegative values. -/
def Q.floorToNat (a : Q) : Nat := a.num.toNat / a.den

/-- Interpretation of a `Q` as a mathematical rational. -/
def Q.toRat (a : Q) : ℚ := (a.num : ℚ) / (a.den : ℚ)

/-- A well-formed real model: positive denominator. -/
def Q.Pos (a : Q) : Prop := 0 < a.den

/-- The `1e-9` epsilon used by the code. -/
def qEps : Q := ⟨1, 1000000000⟩

/-- Model of `clamp_f64` (the exact-rational model has no NaN):
`value.max(min).min(max)`. -/
def clamp_f64 (value lo hi : Q) : Q := Q.minQ (Q.maxQ value lo) hi

/-- Model of `frame_end_time_ms`:
`(((frame_index as f64) + 1.0) * (1000.0 / fps)).round() as u64`.
`f64::round` rounds half away from zero; the value is nonnegative, so it is
`⌊q + 1/2⌋`. -/
def frame_end_time_ms (frame_index : Nat) (fps : Q) : Nat :=
  Q.floorToNat (Q.add (Q.mul (qI (frame_index + 1)) (Q.div (qI 1000) fps)) ⟨1, 2⟩)

/-- The positive inter-observation time deltas of consecutive frame times
(the `windows(2)` + `saturating_sub` + positivity filter of
`infer_frame_step_ms`). -/
def positiveDeltas (times : List Nat) : List Nat :=
  (times.zip times.tail).filterMap
    (fun p => let d := p.2 - p.1; if 0 < d then some d else none)

/-- Insertion into a sorted list of naturals. -/
def insertSorted (n : Nat) : List Nat → List Nat
  | [] => [n]
  | m :: ms => if n ≤ m then n :: m :: ms else m :: insertSorted n ms

/-- Ascending sort of naturals (the unique sorted permutation, which is what
`sort_unstable` produces on `u64`). -/
def sortNat (l : List Nat) : List Nat := l.foldr insertSorted []

/-- Model of `infer_frame_step_ms`: `None` when fewer than two frames or no
positive delta; otherwise the element at index `len / 2` of the
ascending-sorted positive deltas. -/
def infer_frame_step_ms (times : List Nat) : Option Nat :=
  if times.length < 2 then none
  else
    let deltas := positiveDeltas times
    if deltas = [] then none
    else
      let sorted := sortNat deltas
      some (sorted.getD (sorted.length / 2) 0)

/-- Model of `segment_end_time_ms`. -/
def segment_end_time_ms (start_time last_seen_time : Nat) (last_seen_frame_index : Nat)
    (frame_step_ms : Option Nat) (fps : Q) : Nat :=
  let e := match frame_step_ms with
    | some step => last_seen_time + step
    | none => frame_end_time_ms last_seen_frame_index fps
  if e ≤ start_time then start_time + 1 else e

/-- Model of `collapse_whitespace`'s accumulation loop (`out`, `last_was_space`). -/
def collapseAux : List Char → Bool → List Char → List Char
  | [], _, out => out
  | c :: cs, lastWasSpace, out =>
    if c.isWhitespace then
      collapseAux cs true (if !lastWasSpace && !out.isEmpty then out ++ [' '] else out)
    else
      collapseAux cs false (out ++ [c])

/-- Strip leading and trailing characters matching `p` (Rust `trim_matches`). -/
def trimEdges (p : Char → Bool) (l : List Char) : List Char :=
  ((l.dropWhile p).reverse.dropWhile p).reverse

/-- Model of `collapse_whitespace`: collapse whitespace runs to single spaces,
then trim. -/
def collapse_whitespace (text : List Char) : List Char :=
  trimEdges Char.isWhitespace (collapseAux text false [])

/-- Rust `char::is_ascii_punctuation`. -/
def isAsciiPunct (c : Char) : Bool :=
  let n := c.toNat
  (33 ≤ n && n ≤ 47) || (58 ≤ n && n ≤ 64) || (91 ≤ n && n ≤ 96) || (123 ≤ n && n ≤ 126)

/-- Model of `is_edge_punctuation`. -/
def is_edge_punctuation (c : Char) : Bool :=
  c.isWhitespace || isAsciiPunct c ||
    (c = '，' || c = '。' || c = '！' || c = '？' || c = '：' || c = '；' || c = '、' ||
     c = '“' || c = '”' || c = '‘' || c = '’' || c = '《' || c = '》' || c = '（' ||
     c = '）' || c = '【' || c = '】' || c = '—' || c = '…' || c = '～' || c = '·')

/-- Model of `normalize_text_for_compare`: collapse whitespace, trim edge
punctuation, lowercase. -/
def normalize_text_for_compare (text : List Char) : List Char :=
  (trimEdges is_edge_punctuation (collapse_whitespace text)).map Char.toLower

/-- One inner row pass of the bounded-Levenshtein DP: walks the short word and
the previous row (`p0 :: p1 :: _` giving `prev[i]`, `prev[i+1]`), carrying the
freshly computed left neighbour `cur[i]`. -/
def buildRow (longCh : Char) : List Char → List Nat → Nat → List Nat
  | s :: ss, p0 :: p1 :: ps, left =>
    let cost : Nat := if s = longCh then 0 else 1
    let v := Nat.min (Nat.min (left + 1) (p1 + 1)) (p0 + cost)
    v :: buildRow longCh ss (p1 :: ps) v
  | _, _, _ => []

/-- One outer step of the bounded-Levenshtein DP: build the next row from the
previous one, aborting (`none`) when the running row minimum exceeds the bound. -/
def levStep (maxDist : Nat) (short : List Char) (prev : List Nat) (longCh : Char) :
    Option (List Nat) :=
  let cur0 := prev.headD 0 + 1
  let rest := buildRow longCh short prev cur0
  if maxDist < rest.foldl Nat.min cur0 then none else some (cur0 :: rest)

/-- The DP fold over the long word's characters. -/
def levFoldFrom (maxDist : Nat) (short : List Char) (st : Option (List Nat))
    (long : List Char) : Option (List Nat) :=
  long.foldl (fun st c => st.bind (fun prev => levStep maxDist short prev c)) st

/-- Model of `levenshtein_distance_bounded`: two-row rolling DP over Unicode
scalars with early length rejection and early in-row abort. -/
def levenshtein_distance_bounded (a b : List Char) (maxDist : Nat) : Option Nat :=
  let short := if a.length ≤ b.length then a else b
  let long := if a.length ≤ b.length then b else a
  if maxDist < long.length - short.length then none
  else
    match levFoldFrom maxDist short (some (List.range (short.length + 1))) long with
    | none => none
    | some prev =>
      let d := prev.getLastD 0
      if d ≤ maxDist then some d else none

/-- Rust `haystack.contains(needle)` for the scalar sequences of valid UTF-8
strings: contiguous-sublist containment. -/
def containsSlice : List Char → List Char → Bool
  | hay, needle =>
    if needle.isPrefixOf hay then true
    else
      match hay with
      | [] => false
      | _ :: t => containsSlice t needle

/-- Model of `texts_are_similar`. -/
def texts_are_similar (aKey bKey : List Char) (threshold : Q) : Bool :=
  if aKey = bKey then true
  else
    let aLen := aKey.length
    let bLen := bKey.length
    let minLen := Nat.min aLen bLen
    let maxLen := Nat.max aLen bLen
    if (containsSlice aKey bKey || containsSlice bKey aKey) &&
        (decide (maxLen - minLen ≤ 2) || Q.ble ⟨70, 100⟩ (Q.div (qI minLen) (qI maxLen))) then
      true
    else if minLen < 6 then
      if aLen ≠ bLen then false
      else
        match levenshtein_distance_bounded aKey bKey 1 with
        | some dist => decide (dist ≤ 1)
        | none => false
    else
      let t := clamp_f64 threshold ⟨0, 1⟩ ⟨1, 1⟩
      let maxDist := Q.ceilToNat (Q.mul (Q.sub ⟨1, 1⟩ t) (qI maxLen))
      if maxDist = 0 then false
      else
        match levenshtein_distance_bounded aKey bKey maxDist with
        | none => false
        | some dist =>
          Q.ble t (Q.add (Q.sub ⟨1, 1⟩ (Q.div (qI dist) (qI maxLen))) qEps)

example : texts_are_similar "关门".toList "关".toList ⟨9, 10⟩ = true := by decide
example : texts_are_similar "hello world".toList "hello worl".toList ⟨9, 10⟩ = true := by decide
example : texts_are_similar "这是一个非常长的句子".toList "一".toList ⟨9, 10⟩ = false := by decide
example : texts_are_similar "吴昊 菲菲".toList "昊昊 菲菲".toList ⟨85, 100⟩ = true := by decide
example : texts_are_similar "吴昊 菲菲".toList "叶昊 爸爸".toList ⟨85, 100⟩ = false := by decide
example : texts_are_similar "today we fight together".toList "today we fight togather".toList
    ⟨92, 100⟩ = true := by decide
example : texts_are_similar "today we fight together".toList "tomorrow we run away".toList
    ⟨92, 100⟩ = false := by decide
example : normalize_text_for_compare "《Hello, World!》".toList = "hello, world".toList := by decide
example : collapse_whitespace "  hello   world \n\t".toList = "hello world".toList := by decide
example : levenshtein_distance_bounded "abc".toList "xyz".toList 1 = none := by decide

/-- Rust `char::is_ascii_alphanumeric`. -/
def isAsciiAlphanum (c : Char) : Bool :=
  let n := c.toNat
  (48 ≤ n && n ≤ 57) || (65 ≤ n && n ≤ 90) || (97 ≤ n && n ≤ 122)

/-- Rust `char::is_ascii_alphabetic`. -/
def isAsciiAlpha (c : Char) : Bool :=
  let n := c.toNat
  (65 ≤ n && n ≤ 90) || (97 ≤ n && n ≤ 122)

/-- Model of `token_looks_like_domain`. -/
def token_looks_like_domain (token : List Char) : Bool :=
  let tok := trimEdges (fun c => !(isAsciiAlphanum c) && c ≠ '.' && c ≠ '-') token
  let parts := tok.splitOn '.'
  if parts.length < 2 || parts.any (fun p => p.isEmpty) then false
  else
    let tld := parts.getLastD []
    if !(2 ≤ tld.length && tld.length ≤ 6) || !(tld.all isAsciiAlpha) then false
    else
      let dom := parts.dropLast.getLastD []
      if dom.length < 2 || !(dom.any isAsciiAlpha) then false
      else true

/-- Split on whitespace runs, dropping empty tokens (Rust `split_whitespace`). -/
def splitWsAux : List Char → List Char → List (List Char)
  | [], acc => if acc.isEmpty then [] else [acc.reverse]
  | c :: cs, acc =>
    if c.isWhitespace then
      if acc.isEmpty then splitWsAux cs [] else acc.reverse :: splitWsAux cs []
    else splitWsAux cs (c :: acc)

/-- Model of `text_looks_url_like`. -/
def text_looks_url_like (text : List Char) : Bool :=
  let lower := text.map Char.toLower
  if containsSlice lower "http://".toList || containsSlice lower "https://".toList ||
      containsSlice lower "www.".toList then true
  else if containsSlice lower ".com".toList || containsSlice lower ".net".toList ||
      containsSlice lower ".org".toList || containsSlice lower ".co".toList ||
      containsSlice lower ".io".toList || containsSlice lower ".me".toList ||
      containsSlice lower ".tv".toList || containsSlice lower ".app".toList then true
  else (splitWsAux lower []).any token_looks_like_domain

example : token_looks_like_domain "example.com".toList = true := by decide
example : token_looks_like_domain "not-a-domain".toList = false := by decide
example : text_looks_url_like "visit https://example.com now".toList = true := by decide
example : text_looks_url_like "example.org".toList = true := by decide
example : text_looks_url_like "plain subtitle text".toList = false := by decide

/-- Model of the `SegmentCandidate` record. -/
structure SegmentCandidate where
  key : List Char
  text : List Char
  confidence : Q
deriving DecidableEq, Repr

/-- Model of the `SubtitleSegment` accumulator. -/
structure SubtitleSegment where
  start_time : Nat
  last_seen_time : Nat
  last_seen_frame_index : Nat
  baseline_key : List Char
  baseline_confidence : Q
  candidates : List SegmentCandidate
deriving DecidableEq, Repr

/-- Model of `OcrFrameResult`. -/
structure OcrFrameResult where
  frame_index : Nat
  time_ms : Nat
  text : List Char
  confidence : Q
deriving DecidableEq, Repr

/-- Model of `OcrSubtitleCleanupOptions`. -/
structure OcrSubtitleCleanupOptions where
  merge_similar : Bool
  similarity_threshold : Q
  max_gap_ms : Nat
  min_cue_duration_ms : Nat
  filter_url_like : Bool
deriving DecidableEq, Repr

/-- Model of `OcrSubtitleEntry`. -/
structure OcrSubtitleEntry where
  id : String
  text : List Char
  start_time : Nat
  end_time : Nat
  confidence : Q
deriving DecidableEq, Repr

/-- Per-key statistics tracked by `select_segment_text`'s hash map:
`key -> (count, max_confidence, text_at_max_confidence)`. -/
structure GroupStat where
  key : List Char
  count : Nat
  maxConf : Q
  textAtMax : List Char
deriving DecidableEq, Repr

/-- One candidate folded into the statistics, in first-insertion order
(`entry(..).or_insert((0, 0.0, text))` followed by the count/max update). -/
def updateStats (stats : List GroupStat) (c : SegmentCandidate) : List GroupStat :=
  if stats.any (fun g => g.key = c.key) then
    stats.map (fun g =>
      if g.key = c.key then
        { g with
          count := g.count + 1
          maxConf := if Q.blt g.maxConf c.confidence then c.confidence else g.maxConf
          textAtMax := if Q.blt g.maxConf c.confidence then c.text else g.textAtMax }
      else g)
  else
    stats ++ [{ key := c.key, count := 1
                maxConf := if Q.blt ⟨0, 1⟩ c.confidence then c.confidence else ⟨0, 1⟩
                textAtMax := c.text }]

/-- The canonical (first-insertion-ordered) grouping of a candidate list. -/
def groupStats (cs : List SegmentCandidate) : List GroupStat :=
  cs.foldl updateStats []

/-- Composite score of a group: max confidence + frequency bonus + length
bonus. -/
def groupScore (total : Q) (g : GroupStat) : Q :=
  Q.add (Q.add g.maxConf (Q.mul (Q.div (qI g.count) total) ⟨5, 100⟩))
    (Q.minQ (Q.mul (qI g.textAtMax.length) ⟨5, 1000⟩) ⟨5, 100⟩)

/-- The selection fold over the (arbitrarily ordered) group statistics:
first strictly-greater score wins, starting from a best score of `-1`. -/
def selectFromStats (total : Q) (stats : List GroupStat) : Option (List Char × Q) :=
  (stats.foldl
    (fun (acc : Option (List Char × Q) × Q) g =>
      let score := groupScore total g
      if Q.blt acc.2 score then (some (g.textAtMax, g.maxConf), score) else acc)
    (none, ⟨-1, 1⟩)).1

/-- Model of `select_segment_text`; `ord` supplies the hash-map iteration
order of the grouped statistics. -/
def select_segment_text (ord : List GroupStat → List GroupStat)
    (candidates : List SegmentCandidate) : Option (List Char × Q) :=
  if candidates.isEmpty then none
  else selectFromStats (qI candidates.length) (ord (groupStats candidates))

/-- Display text of a frame (`collapse_whitespace(frame.text)`). -/
def displayOf (f : OcrFrameResult) : List Char := collapse_whitespace f.text

/-- Normalized comparison key of a frame. -/
def keyOf (f : OcrFrameResult) : List Char := normalize_text_for_compare (displayOf f)

/-- Validity predicate of the stabilizer: confidence at least `min_confidence`
and non-empty normalized key. -/
def frameValid (minConf : Q) (f : OcrFrameResult) : Bool :=
  Q.ble minConf f.confidence && !(keyOf f).isEmpty

/-- The similarity test used inside the core: full metric when
`merge_similar`, plain key equality otherwise. -/
def similarInCore (mergeSimilar : Bool) (τ : Q) (a b : List Char) : Bool :=
  if mergeSimilar then texts_are_similar a b τ else decide (a = b)

/-- A fresh segment opened at `f`. -/
def newSegmentOf (f : OcrFrameResult) : SubtitleSegment :=
  { start_time := f.time_ms
    last_seen_time := f.time_ms
    last_seen_frame_index := f.frame_index
    baseline_key := keyOf f
    baseline_confidence := f.confidence
    candidates := [{ key := keyOf f, text := displayOf f, confidence := f.confidence }] }

/-- State of the stabilizer loop: closed segments plus the optional active
segment. -/
structure StabState where
  segments : List SubtitleSegment
  current : Option SubtitleSegment
deriving DecidableEq, Repr

/-- Whether a lookahead frame is valid and similar to the active baseline. -/
def lookHit (mergeSimilar : Bool) (τ minConf : Q) (base : List Char) :
    Option OcrFrameResult → Bool
  | none => false
  | some nf => frameValid minConf nf && similarInCore mergeSimilar τ base (keyOf nf)

/-- One iteration of the stabilizer loop of `generate_subtitles_core`;
`next1`/`next2` are the following two frames (the blip lookahead window). -/
def stabilizeStep (mergeSimilar : Bool) (τ : Q) (maxGap : Nat) (minConf : Q)
    (f : OcrFrameResult) (next1 next2 : Option OcrFrameResult) (st : StabState) : StabState :=
  match st.current with
  | none =>
    if frameValid minConf f then { st with current := some (newSegmentOf f) } else st
  | some seg =>
    if !frameValid minConf f then
      if f.time_ms - seg.last_seen_time > maxGap then
        { segments := st.segments ++ [seg], current := none }
      else st
    else
      let gap := f.time_ms - seg.last_seen_time
      if gap > maxGap then
        { segments := st.segments ++ [seg], current := some (newSegmentOf f) }
      else if similarInCore mergeSimilar τ seg.baseline_key (keyOf f) then
        let seg1 := { seg with
          last_seen_time := f.time_ms
          last_seen_frame_index := f.frame_index
          candidates := seg.candidates ++
            [{ key := keyOf f, text := displayOf f, confidence := f.confidence }] }
        let seg2 :=
          if Q.blt (Q.add seg.baseline_confidence qEps) f.confidence then
            { seg1 with baseline_key := keyOf f, baseline_confidence := f.confidence }
          else seg1
        { st with current := some seg2 }
      else if lookHit mergeSimilar τ minConf seg.baseline_key next1 ||
          lookHit mergeSimilar τ minConf seg.baseline_key next2 then
        { st with current := some { seg with
            last_seen_time := f.time_ms
            last_seen_frame_index := f.frame_index } }
      else
        { segments := st.segments ++ [seg], current := some (newSegmentOf f) }

/-- The stabilizer loop over the frame list (the two lookahead slots are the
next two list elements, as `frame_results.get(i + 1)` / `get(i + 2)`). -/
def stabilizeLoop (mergeSimilar : Bool) (τ : Q) (maxGap : Nat) (minConf : Q) :
    List OcrFrameResult → StabState → StabState
  | [], st => st
  | f :: rest, st =>
    stabilizeLoop mergeSimilar τ maxGap minConf rest
      (stabilizeStep mergeSimilar τ maxGap minConf f rest.head? (rest.drop 1).head? st)

/-- The full stabilizer: run the loop, then close any open segment. -/
def stabilize (mergeSimilar : Bool) (τ : Q) (maxGap : Nat) (minConf : Q)
    (frames : List OcrFrameResult) : List SubtitleSegment :=
  let st := stabilizeLoop mergeSimilar τ maxGap minConf frames ⟨[], none⟩
  match st.current with
  | some seg => st.segments ++ [seg]
  | none => st.segments

/-- Id string of the `k`-th subtitle. -/
def subId (k : Nat) : String := "sub-" ++ toString k

/-- Build the raw entry list from closed segments: select a text per segment
(dropping segments with no selection), derive the end time, and assign
`sub-(len+1)` ids at push time. -/
def buildEntries (ord : List GroupStat → List GroupStat) (step : Option Nat) (fps : Q)
    (segs : List SubtitleSegment) : List OcrSubtitleEntry :=
  segs.foldl
    (fun acc seg =>
      match select_segment_text ord seg.candidates with
      | none => acc
      | some sel =>
        acc ++ [{ id := subId (acc.length + 1)
                  text := sel.1
                  start_time := seg.start_time
                  end_time := segment_end_time_ms seg.start_time seg.last_seen_time
                    seg.last_seen_frame_index step fps
                  confidence := sel.2 }])
    []

/-- UTF-8 byte length of a text (Rust `String::len`). -/
def byteLen (l : List Char) : Nat := (l.map Char.utf8Size).sum

/-- One step of the adjacent-merge scan: merge `sub` into the accumulated
last entry or append it. -/
def mergeInto (τ : Q) (maxGap minCue : Nat) (merged : List OcrSubtitleEntry)
    (sub : OcrSubtitleEntry) : List OcrSubtitleEntry :=
  match merged.getLast? with
  | none => merged ++ [sub]
  | some prev =>
    let gap := sub.start_time - prev.end_time
    let prevKey := normalize_text_for_compare prev.text
    let subKey := normalize_text_for_compare sub.text
    let prevDur := prev.end_time - prev.start_time
    let subDur := sub.end_time - sub.start_time
    let similarStrict := texts_are_similar prevKey subKey τ
    let similarShort := texts_are_similar prevKey subKey ⟨80, 100⟩
    let isShort := prevDur < minCue || subDur < minCue
    if gap ≤ maxGap && (similarStrict || (isShort && similarShort)) then
      let newText :=
        if Q.blt (Q.add prev.confidence qEps) sub.confidence ||
            (Q.ble (Q.absQ (Q.sub sub.confidence prev.confidence)) qEps &&
              decide (byteLen prev.text < byteLen sub.text)) then
          sub.text
        else prev.text
      merged.dropLast ++
        [{ prev with
            end_time := Nat.max prev.end_time sub.end_time
            text := newText
            confidence := Q.maxQ prev.confidence sub.confidence }]
    else merged ++ [sub]

/-- Renumber ids sequentially (`sub-1`, `sub-2`, ...). -/
def renumber (l : List OcrSubtitleEntry) : List OcrSubtitleEntry :=
  l.enum.map (fun p => { p.2 with id := subId (p.1 + 1) })

/-- The merge-and-renumber step of the cleanup pass. -/
def mergeAndRenumber (τ : Q) (maxGap minCue : Nat) (l : List OcrSubtitleEntry) :
    List OcrSubtitleEntry :=
  renumber (l.foldl (mergeInto τ maxGap minCue) [])

/-- The effective similarity threshold of a run (`clamp(0.80, 0.98)` when
merging, exact-match sentinel `1.0` otherwise). -/
def effThreshold (cleanup : OcrSubtitleCleanupOptions) : Q :=
  if cleanup.merge_similar then clamp_f64 cleanup.similarity_threshold ⟨80, 100⟩ ⟨98, 100⟩
  else ⟨1, 1⟩

/-- The closed segments of a run (independent of the hash order). -/
def stabilizedSegments (frames : List OcrFrameResult) (minConfidence : Q)
    (cleanup : OcrSubtitleCleanupOptions) : List SubtitleSegment :=
  stabilize cleanup.merge_similar (effThreshold cleanup) cleanup.max_gap_ms
    (clamp_f64 minConfidence ⟨0, 1⟩ ⟨1, 1⟩) frames

/-- Entry list right before the merge step: raw entries, then the optional
URL filter. -/
def preMergeEntries (ord : List GroupStat → List GroupStat) (frames : List OcrFrameResult)
    (fps : Q) (minConfidence : Q) (cleanup : OcrSubtitleCleanupOptions) :
    List OcrSubtitleEntry :=
  let subs0 := buildEntries ord (infer_frame_step_ms (frames.map (fun f => f.time_ms))) fps
    (stabilizedSegments frames minConfidence cleanup)
  if cleanup.filter_url_like then subs0.filter (fun s => !text_looks_url_like s.text) else subs0

/-- Model of `generate_subtitles_core` (`none` models the fps configuration
error; the progress callback has no effect on the result and is omitted). -/
def generate_subtitles_core (ord : List GroupStat → List GroupStat)
    (frames : List OcrFrameResult) (fps : Q) (minConfidence : Q)
    (cleanup : OcrSubtitleCleanupOptions) : Option (List OcrSubtitleEntry) :=
  if Q.ble fps ⟨0, 1⟩ then none
  else
    let subs1 := preMergeEntries ord frames fps minConfidence cleanup
    some
      (if cleanup.merge_similar ∧ 1 < subs1.length then
        mergeAndRenumber (effThreshold cleanup) cleanup.max_gap_ms
          cleanup.min_cue_duration_ms subs1
      else subs1)

/-- Default cleanup options (`impl Default for OcrSubtitleCleanupOptions`). -/
def defaultCleanup : OcrSubtitleCleanupOptions :=
  { merge_similar := true
    similarity_threshold := ⟨92, 100⟩
    max_gap_ms := 250
    min_cue_duration_ms := 500
    filter_url_like := true }

/-- The identity hash order (one concrete possible iteration order). -/
def idOrd : List GroupStat → List GroupStat := fun l => l

/-- Convenience constructor for a frame result with confidence `cn / cd`. -/
def tFrame (i t : Nat) (s : String) (cn : Int) (cd : Nat) : OcrFrameResult :=
  { frame_index := i, time_ms := t, text := s.toList, confidence := ⟨cn, cd⟩ }

/-- Observable view of a run's outcome: id, text, start and end per entry. -/
def view (r : Option (List OcrSubtitleEntry)) :
    Option (List (String × List Char × Nat × Nat)) :=
  r.map (fun l => l.map (fun e => (e.id, e.text, e.start_time, e.end_time)))

example : view (generate_subtitles_core idOrd
    [tFrame 0 0 "Hello world" 92 100, tFrame 1 500 "Hello world" 93 100,
     tFrame 2 1000 "Hello world" 94 100] ⟨2, 1⟩ ⟨1, 2⟩ defaultCleanup) =
    some [("sub-1", "Hello world".toList, 0, 1500)] := by decide

example : view (generate_subtitles_core idOrd
    [tFrame 0 0 "Timing test" 95 100, tFrame 1 67 "Timing test" 95 100,
     tFrame 2 133 "Timing test" 95 100] ⟨10, 1⟩ ⟨1, 2⟩ defaultCleanup) =
    some [("sub-1", "Timing test".toList, 0, 200)] := by decide

example : view (generate_subtitles_core idOrd
    [tFrame 0 0 "Fallback timing" 95 100, tFrame 1 0 "Fallback timing" 95 100,
     tFrame 2 0 "Fallback timing" 95 100] ⟨10, 1⟩ ⟨1, 2⟩ defaultCleanup) =
    some [("sub-1", "Fallback timing".toList, 0, 300)] := by decide

example : view (generate_subtitles_core idOrd
    [tFrame 0 0 "Je suis une longue phrase" 95 100,
     tFrame 1 500 "Je su1s unel0ngu phrase" 96 100,
     tFrame 2 1000 "Je suis une longue phrase" 95 100,
     tFrame 3 1500 "Une autre phrase" 95 100] ⟨2, 1⟩ ⟨1, 2⟩
    { merge_similar := true, similarity_threshold := ⟨95, 100⟩, max_gap_ms := 1000,
      min_cue_duration_ms := 500, filter_url_like := false }) =
    some [("sub-1", "Je suis une longue phrase".toList, 0, 1500),
          ("sub-2", "Une autre phrase".toList, 1500, 2000)] := by decide

example : view (generate_subtitles_core idOrd
    [tFrame 0 0 "www.example.com" 99 100, tFrame 1 1000 "Real subtitle" 99 100]
    ⟨1, 1⟩ ⟨1, 2⟩
    { merge_similar := false, similarity_threshold := ⟨92, 100⟩, max_gap_ms := 250,
      min_cue_duration_ms := 300, filter_url_like := true }) =
    some [("sub-2", "Real subtitle".toList, 1000, 2000)] := by decide

example : generate_subtitles_core idOrd [tFrame 0 0 "Hello" 99 100] ⟨0, 1⟩ ⟨1, 2⟩
    defaultCleanup = none := by decide

example : generate_subtitles_core idOrd [tFrame 0 0 "Hello" 99 100] ⟨-1, 1⟩ ⟨1, 2⟩
    defaultCleanup = none := by decide

example : generate_subtitles_core idOrd [] ⟨1, 1⟩ ⟨1, 2⟩ defaultCleanup = some [] := by decide

example : generate_subtitles_core idOrd
    [tFrame 0 0 "Hello" 10 100, tFrame 1 1000 "World" 15 100] ⟨1, 1⟩ ⟨80, 100⟩
    defaultCleanup = some [] := by decide

example : view (generate_subtitles_core idOrd [tFrame 0 0 "Single frame" 99 100]
    ⟨1, 1⟩ ⟨1, 2⟩ defaultCleanup) =
    some [("sub-1", "Single frame".toList, 0, 1000)] := by decide

example : view (generate_subtitles_core idOrd
    [tFrame 0 0 "today we fight together" 95 100, tFrame 1 500 "today we fight togather" 96 100]
    ⟨2, 1⟩ ⟨1, 2⟩
    { merge_similar := true, similarity_threshold := ⟨98, 100⟩, max_gap_ms := 1000,
      min_cue_duration_ms := 800, filter_url_like := false }) =
    some [("sub-1", "today we fight togather".toList, 0, 1000)] := by decide

/-- Reference Levenshtein distance (unit insert/delete/substitute costs over
Unicode scalars), by structural recursion on the front of both words. -/
def lev : List Char → List Char → Nat
  | [], ys => ys.length
  | x :: xs, [] => (x :: xs).length
  | x :: xs, y :: ys =>
    Nat.min (Nat.min (lev (x :: xs) ys + 1) (lev xs (y :: ys) + 1))
      (lev xs ys + (if x = y then 0 else 1))
termination_by a b => a.length + b.length
decreasing_by all_goals simp [List.length] <;> omega

/-- The reference distance in the orientation of the DP (which consumes both
words from their left end, i.e. builds them up from the right): distance of
the reversed words. -/
def levD (a b : List Char) : Nat := lev a.reverse b.reverse

/-- Levenshtein distance is symmetric. -/
theorem lev_symm : ∀ a b : List Char, lev a b = lev b a := by
  intro a b
  induction a, b using lev.induct with
  | case1 ys => cases ys <;> simp [lev]
  | case2 x xs => simp [lev]
  | case3 x xs y ys ih1 ih2 ih3 =>
    rw [lev, lev]
    by_cases h : x = y
    · subst h
      simp [ih1, ih2, ih3]
      omega
    · have h2 : ¬ (y = x) := fun hh => h hh.symm
      simp [h, h2, ih1, ih2, ih3]
      omega

/-- `levD` is symmetric. -/
theorem levD_symm (a b : List Char) : levD a b = levD b a := lev_symm _ _

/-- The distance dominates the length gap, in both directions. -/
theorem lev_length_lb : ∀ a b : List Char,
    a.length - b.length ≤ lev a b ∧ b.length - a.length ≤ lev a b := by
  intro a b
  induction a, b using lev.induct with
  | case1 ys => simp [lev]
  | case2 x xs => simp [lev]
  | case3 x xs y ys ih1 ih2 ih3 =>
    rw [lev]
    rcases ih1 with ⟨a1, b1⟩
    rcases ih2 with ⟨a2, b2⟩
    rcases ih3 with ⟨a3, b3⟩
    simp only [List.length_cons] at a1 b1 a2 b2 ⊢
    generalize (if x = y then (0 : Nat) else 1) = cost
    refine ⟨Nat.le_min.mpr ⟨Nat.le_min.mpr ⟨?_, ?_⟩, ?_⟩,
      Nat.le_min.mpr ⟨Nat.le_min.mpr ⟨?_, ?_⟩, ?_⟩⟩ <;> omega

/-- `lev` against the empty word is the length. -/
theorem lev_nil_right (l : List Char) : lev l [] = l.length := by
  cases l <;> simp [lev]

/-- The DP row for reversed long prefix `L`: walking the remaining short word
`ss` with reversed consumed short prefix `rt`, the row lists
`lev L rt, lev L (s0 :: rt), ...`. -/
def rowModel (L : List Char) : List Char → List Char → List Nat
  | rt, [] => [lev L rt]
  | rt, s :: ss => lev L rt :: rowModel L (s :: rt) ss

/-- The running minimum the DP tracks over a row. -/
def rowMin (r : List Nat) : Nat := r.tail.foldl Nat.min (r.headD 0)

/-- A row is never empty and starts with `lev L rt`. -/
theorem rowModel_cons (L rt : List Char) (ss : List Char) :
    rowModel L rt ss = lev L rt :: (rowModel L rt ss).tail := by
  cases ss <;> simp [rowModel]

/-- The last row entry is the distance to the full (reversed) short word. -/
theorem rowModel_getLast (X : List Char) :
    ∀ ss rt : List Char, (rowModel X rt ss).getLastD 0 = lev X (ss.reverse ++ rt) := by
  intro ss
  induction ss with
  | nil => intro rt; simp [rowModel]
  | cons s ss ih =>
    intro rt
    have h1 : rowModel X rt (s :: ss) = lev X rt :: rowModel X (s :: rt) ss := rfl
    have h2 := ih (s :: rt)
    rw [rowModel_cons X (s :: rt) ss, List.getLastD_cons] at h2
    rw [h1, List.getLastD_cons, rowModel_cons X (s :: rt) ss, List.getLastD_cons, h2]
    simp [List.append_assoc]

/-- The head of a row. -/
theorem rowModel_headD (L rt ss : List Char) : (rowModel L rt ss).headD 0 = lev L rt := by
  cases ss <;> rfl

/-- A fold of `Nat.min` stays above `m` exactly when the seed and every
element do. -/
theorem foldlMin_lt_iff (m : Nat) :
    ∀ (l : List Nat) (a : Nat), m < l.foldl Nat.min a ↔ m < a ∧ ∀ x ∈ l, m < x := by
  intro l
  induction l with
  | nil => intro a; simp
  | cons x l ih =>
    intro a
    rw [List.foldl_cons, ih]
    simp only [Nat.lt_min, List.mem_cons]
    constructor
    · rintro ⟨⟨h1, h2⟩, h3⟩
      exact ⟨h1, fun y hy => hy.elim (fun e => e ▸ h2) (h3 y)⟩
    · rintro ⟨h1, h2⟩
      exact ⟨⟨h1, h2 x (Or.inl rfl)⟩, fun y hy => h2 y (Or.inr hy)⟩

/-- A fold of `Nat.min` is bounded by its seed. -/
theorem foldlMin_le_init : ∀ (l : List Nat) (a : Nat), l.foldl Nat.min a ≤ a := by
  intro l
  induction l with
  | nil => intro a; exact Nat.le_refl a
  | cons x l ih =>
    intro a
    exact Nat.le_trans (ih (Nat.min a x)) (Nat.min_le_left a x)

/-- A fold of `Nat.min` is bounded by every list element. -/
theorem foldlMin_le_mem : ∀ (l : List Nat) (a x : Nat), x ∈ l → l.foldl Nat.min a ≤ x := by
  intro l
  induction l with
  | nil => intro a x hx; cases hx
  | cons y l ih =>
    intro a x hx
    rcases List.mem_cons.mp hx with h | h
    · subst h
      exact Nat.le_trans (foldlMin_le_init l (Nat.min a x)) (Nat.min_le_right a x)
    · exact ih (Nat.min a y) x h

/-- A fold of `Nat.min` stays above any common lower bound. -/
theorem foldlMin_ge : ∀ (l : List Nat) (a k : Nat), (∀ x ∈ l, k ≤ x) → k ≤ a →
    k ≤ l.foldl Nat.min a := by
  intro l
  induction l with
  | nil => intro a k _ h; exact h
  | cons x l ih =>
    intro a k hl ha
    exact ih (Nat.min a x) k (fun y hy => hl y (List.mem_cons_of_mem x hy))
      (Nat.le_min.mpr ⟨ha, hl x (List.mem_cons_self x l)⟩)

/-- The row minimum is bounded by every row entry. -/
theorem rowMin_le_mem (r : List Nat) (x : Nat) (hx : x ∈ r) : rowMin r ≤ x := by
  cases r with
  | nil => cases hx
  | cons h t =>
    rcases List.mem_cons.mp hx with he | he
    · subst he; exact foldlMin_le_init t x
    · exact foldlMin_le_mem t h x he

/-- The row minimum dominates any common lower bound of a nonempty row. -/
theorem rowMin_ge (r : List Nat) (k : Nat) (hr : r ≠ []) (h : ∀ x ∈ r, k ≤ x) :
    k ≤ rowMin r := by
  cases r with
  | nil => exact absurd rfl hr
  | cons x t =>
    exact foldlMin_ge t x k (fun y hy => h y (List.mem_cons_of_mem x hy))
      (h x (List.mem_cons_self x t))

/-- Correctness of the inner row pass: fed the model row of `L` and the
left-column seed, it produces the tail of the model row of `c :: L`. -/
theorem buildRow_model (c : Char) (L : List Char) :
    ∀ (ss rt : List Char),
      buildRow c ss (rowModel L rt ss) (lev (c :: L) rt) = (rowModel (c :: L) rt ss).tail := by
  intro ss
  induction ss with
  | nil => intro rt; rfl
  | cons s ss ih =>
    intro rt
    have h1 : rowModel L rt (s :: ss) = lev L rt :: rowModel L (s :: rt) ss := rfl
    rw [h1, rowModel_cons L (s :: rt) ss]
    rw [buildRow]
    have hcost : (if s = c then (0 : Nat) else 1) = (if c = s then (0 : Nat) else 1) := by
      by_cases h : s = c
      · simp [h]
      · have h2 : ¬ (c = s) := fun hh => h hh.symm
        simp [h, h2]
    have hv : Nat.min (Nat.min (lev (c :: L) rt + 1) (lev L (s :: rt) + 1))
        (lev L rt + if s = c then (0 : Nat) else 1) = lev (c :: L) (s :: rt) := by
      rw [hcost]
      rw [show lev (c :: L) (s :: rt) =
        Nat.min (Nat.min (lev (c :: L) rt + 1) (lev L (s :: rt) + 1))
          (lev L rt + if c = s then (0 : Nat) else 1) from by rw [lev]]
    rw [hv, ← rowModel_cons L (s :: rt) ss, ih (s :: rt)]
    have h3 : rowModel (c :: L) rt (s :: ss) =
        lev (c :: L) rt :: rowModel (c :: L) (s :: rt) ss := rfl
    rw [h3]
    simp only [List.tail_cons]
    exact (rowModel_cons (c :: L) (s :: rt) ss).symm

/-- Correctness of one DP step on model rows: advance to the model row of
`c :: L`, aborting exactly when its minimum exceeds the bound. -/
theorem levStep_model (m : Nat) (s : List Char) (c : Char) (L : List Char) :
    levStep m s (rowModel L [] s) c =
      if m < rowMin (rowModel (c :: L) [] s) then none
      else some (rowModel (c :: L) [] s) := by
  have hc0 : (rowModel L [] s).headD 0 + 1 = lev (c :: L) [] := by
    rw [rowModel_headD, lev_nil_right, lev_nil_right]
    simp
  have hrest : buildRow c s (rowModel L [] s) ((rowModel L [] s).headD 0 + 1) =
      (rowModel (c :: L) [] s).tail := by
    rw [hc0]; exact buildRow_model c L s []
  have hrow : ((rowModel L [] s).headD 0 + 1) ::
      buildRow c s (rowModel L [] s) ((rowModel L [] s).headD 0 + 1) =
      rowModel (c :: L) [] s := by
    rw [hrest, hc0]
    exact (rowModel_cons (c :: L) [] s).symm
  have hmin : (buildRow c s (rowModel L [] s) ((rowModel L [] s).headD 0 + 1)).foldl
      Nat.min ((rowModel L [] s).headD 0 + 1) = rowMin (rowModel (c :: L) [] s) := by
    rw [hrest, hc0]
    show _ = (rowModel (c :: L) [] s).tail.foldl Nat.min ((rowModel (c :: L) [] s).headD 0)
    rw [rowModel_headD]
  show (if m < (buildRow c s (rowModel L [] s) ((rowModel L [] s).headD 0 + 1)).foldl
      Nat.min ((rowModel L [] s).headD 0 + 1) then none
    else some (((rowModel L [] s).headD 0 + 1) ::
      buildRow c s (rowModel L [] s) ((rowModel L [] s).headD 0 + 1))) = _
  rw [hmin, hrow]

/-- A dead DP state stays dead. -/
theorem levFoldFrom_none (m : Nat) (s : List Char) :
    ∀ long : List Char, levFoldFrom m s none long = none := by
  intro long
  induction long with
  | nil => rfl
  | cons c long ih => exact ih

/-- Unfolding one step of the DP fold. -/
theorem levFoldFrom_cons (m : Nat) (s : List Char) (prev : List Nat) (c : Char)
    (long : List Char) :
    levFoldFrom m s (some prev) (c :: long) = levFoldFrom m s (levStep m s prev c) long := rfl

/-- Entries of the successor row dominate any common lower bound of the
previous row that also bounds the new left column. -/
theorem rowModel_lb (c : Char) (L : List Char) :
    ∀ (ss rt : List Char) (k : Nat),
      (∀ x ∈ rowModel L rt ss, k ≤ x) → k ≤ lev (c :: L) rt →
      ∀ y ∈ rowModel (c :: L) rt ss, k ≤ y := by
  intro ss
  induction ss with
  | nil =>
    intro rt k _ h2 y hy
    rcases List.mem_singleton.mp hy with rfl
    exact h2
  | cons s ss ih =>
    intro rt k h1 h2 y hy
    have hhead : lev L rt ∈ rowModel L rt (s :: ss) := by
      rw [show rowModel L rt (s :: ss) = lev L rt :: rowModel L (s :: rt) ss from rfl]
      exact List.mem_cons_self _ _
    have hsecond : lev L (s :: rt) ∈ rowModel L rt (s :: ss) := by
      rw [show rowModel L rt (s :: ss) = lev L rt :: rowModel L (s :: rt) ss from rfl]
      refine List.mem_cons_of_mem _ ?_
      rw [rowModel_cons L (s :: rt) ss]
      exact List.mem_cons_self _ _
    have hnext : k ≤ lev (c :: L) (s :: rt) := by
      rw [show lev (c :: L) (s :: rt) =
        Nat.min (Nat.min (lev (c :: L) rt + 1) (lev L (s :: rt) + 1))
          (lev L rt + if c = s then (0 : Nat) else 1) from by rw [lev]]
      refine Nat.le_min.mpr ⟨Nat.le_min.mpr ⟨?_, ?_⟩, ?_⟩
      · exact Nat.le_succ_of_le h2
      · exact Nat.le_succ_of_le (h1 _ hsecond)
      · exact Nat.le_trans (h1 _ hhead) (Nat.le_add_right _ _)
    rcases List.mem_cons.mp
      (by rw [show rowModel (c :: L) rt (s :: ss) =
        lev (c :: L) rt :: rowModel (c :: L) (s :: rt) ss from rfl] at hy; exact hy) with
      he | he
    · subst he; exact h2
    · exact ih (s :: rt) k
        (fun x hx => h1 x (by
          rw [show rowModel L rt (s :: ss) = lev L rt :: rowModel L (s :: rt) ss from rfl]
          exact List.mem_cons_of_mem _ hx))
        hnext y he

/-- Row minima are monotone along the DP. -/
theorem rowMin_mono (c : Char) (L s : List Char) :
    rowMin (rowModel L [] s) ≤ rowMin (rowModel (c :: L) [] s) := by
  refine rowMin_ge _ _ ?_ ?_
  · rw [rowModel_cons]; exact List.cons_ne_nil _ _
  · refine rowModel_lb c L s [] (rowMin (rowModel L [] s)) (fun x hx => rowMin_le_mem _ _ hx) ?_
    have hmem : lev L [] ∈ rowModel L [] s := by
      rw [rowModel_cons]; exact List.mem_cons_self _ _
    refine Nat.le_trans (rowMin_le_mem _ _ hmem) ?_
    rw [lev_nil_right, lev_nil_right]
    exact Nat.le_succ _

/-- The row minimum never decreases down the remaining DP steps. -/
theorem rowMin_le_future (s : List Char) :
    ∀ (rest X : List Char),
      rowMin (rowModel X [] s) ≤ rowMin (rowModel (rest.reverse ++ X) [] s) := by
  intro rest
  induction rest with
  | nil => intro X; simp
  | cons c rest ih =>
    intro X
    have h1 : rowMin (rowModel X [] s) ≤ rowMin (rowModel (c :: X) [] s) := rowMin_mono c X s
    have h2 := ih (c :: X)
    have h3 : rest.reverse ++ (c :: X) = (c :: rest).reverse ++ X := by
      simp [List.append_assoc]
    rw [h3] at h2
    exact Nat.le_trans h1 h2

/-- The defaulted last element of a nonempty list is a member. -/
theorem getLastD_mem : ∀ (x : Nat) (t : List Nat), (x :: t).getLastD 0 ∈ x :: t := by
  intro x t
  induction t generalizing x with
  | nil => simp
  | cons y t ih =>
    rw [List.getLastD_cons]
    have h : (y :: t).getLastD x = (y :: t).getLastD 0 := by
      rw [List.getLastD_cons, List.getLastD_cons]
    rw [h]
    exact List.mem_cons_of_mem x (ih y)

/-- A completed DP fold returns exactly the model row of the consumed long
word. -/
theorem levFold_some (m : Nat) (s : List Char) :
    ∀ (long L : List Char) (r : List Nat),
      levFoldFrom m s (some (rowModel L [] s)) long = some r →
      r = rowModel (long.reverse ++ L) [] s := by
  intro long
  induction long with
  | nil =>
    intro L r h
    simp only [levFoldFrom, List.foldl_nil, Option.some.injEq] at h
    rw [← h]
    simp
  | cons c long ih =>
    intro L r h
    rw [levFoldFrom_cons, levStep_model] at h
    by_cases habort : m < rowMin (rowModel (c :: L) [] s)
    · rw [if_pos habort, levFoldFrom_none] at h
      cases h
    · rw [if_neg habort] at h
      have := ih (c :: L) r h
      rw [this]
      simp [List.append_assoc]

/-- An aborted DP fold certifies that the distance exceeds the bound. -/
theorem levFold_none (m : Nat) (s : List Char) :
    ∀ (long L : List Char),
      levFoldFrom m s (some (rowModel L [] s)) long = none →
      m < lev (long.reverse ++ L) s.reverse := by
  intro long
  induction long with
  | nil =>
    intro L h
    simp [levFoldFrom] at h
  | cons c long ih =>
    intro L h
    rw [levFoldFrom_cons, levStep_model] at h
    have hlist : long.reverse ++ (c :: L) = (c :: long).reverse ++ L := by
      simp [List.append_assoc]
    by_cases habort : m < rowMin (rowModel (c :: L) [] s)
    · have hfin : rowMin (rowModel (c :: L) [] s) ≤
          lev ((c :: long).reverse ++ L) s.reverse := by
        have h1 := rowMin_le_future s long (c :: L)
        have h2 : (rowModel (long.reverse ++ (c :: L)) [] s).getLastD 0 =
            lev (long.reverse ++ (c :: L)) s.reverse := by
          rw [rowModel_getLast]
          simp
        have h3 : rowMin (rowModel (long.reverse ++ (c :: L)) [] s) ≤
            (rowModel (long.reverse ++ (c :: L)) [] s).getLastD 0 := by
          refine rowMin_le_mem _ _ ?_
          rw [rowModel_cons]
          exact getLastD_mem _ _
        rw [h2] at h3
        rw [hlist] at h1 h3
        exact Nat.le_trans h1 h3
      exact Nat.lt_of_lt_of_le habort hfin
    · rw [if_neg habort] at h
      have := ih (c :: L) h
      rw [hlist] at this
      exact this

/-- The initial DP row is `0, 1, ..., short.length`. -/
theorem rowModel_nil_eq_range :
    ∀ (ss rt : List Char), rowModel [] rt ss = List.range' rt.length (ss.length + 1) := by
  intro ss
  induction ss with
  | nil =>
    intro rt
    show [lev [] rt] = _
    rw [show lev [] rt = rt.length from by rw [lev]]
    simp [List.range']
  | cons s ss ih =>
    intro rt
    show lev [] rt :: rowModel [] (s :: rt) ss = _
    rw [show lev [] rt = rt.length from by rw [lev], ih (s :: rt)]
    simp [List.range']

/-- Characterization of the bounded-Levenshtein implementation: it returns
the (reference) distance when that is within the bound, and `none` otherwise. -/
theorem levBounded_eq (a b : List Char) (m : Nat) :
    levenshtein_distance_bounded a b m =
      if levD a b ≤ m then some (levD a b) else none := by
  have core : ∀ short long : List Char, short.length ≤ long.length →
      (if m < long.length - short.length then none
       else
        match levFoldFrom m short (some (List.range (short.length + 1))) long with
        | none => none
        | some prev =>
          if prev.getLastD 0 ≤ m then some (prev.getLastD 0) else none) =
      if lev long.reverse short.reverse ≤ m then some (lev long.reverse short.reverse)
      else none := by
    intro short long _
    by_cases hpre : m < long.length - short.length
    · rw [if_pos hpre]
      have h1 : long.length - short.length ≤ lev long.reverse short.reverse := by
        have := (lev_length_lb long.reverse short.reverse).1
        simpa using this
      rw [if_neg (by omega)]
    · rw [if_neg hpre]
      have hinit : List.range (short.length + 1) = rowModel [] [] short := by
        rw [rowModel_nil_eq_range short []]
        exact List.range_eq_range' _
      rw [hinit]
      cases hf : levFoldFrom m short (some (rowModel [] [] short)) long with
      | none =>
        have := levFold_none m short long [] hf
        rw [List.append_nil] at this
        rw [if_neg (by omega)]
      | some r =>
        have hr := levFold_some m short long [] r hf
        rw [List.append_nil] at hr
        have hlast : r.getLastD 0 = lev long.reverse short.reverse := by
          rw [hr, rowModel_getLast]
          simp
        show (if r.getLastD 0 ≤ m then some (r.getLastD 0) else none) = _
        rw [hlast]
  by_cases hab : a.length ≤ b.length
  · have hunf : levenshtein_distance_bounded a b m =
        (if m < b.length - a.length then none
         else
          match levFoldFrom m a (some (List.range (a.length + 1))) b with
          | none => none
          | some prev => if prev.getLastD 0 ≤ m then some (prev.getLastD 0) else none) := by
      simp only [levenshtein_distance_bounded, if_pos hab]
    have hd : lev b.reverse a.reverse = levD a b := (levD_symm a b).symm
    rw [hunf, core a b hab, hd]
  · have hba : b.length ≤ a.length := Nat.le_of_not_le hab
    have hunf : levenshtein_distance_bounded a b m =
        (if m < a.length - b.length then none
         else
          match levFoldFrom m b (some (List.range (b.length + 1))) a with
          | none => none
          | some prev => if prev.getLastD 0 ≤ m then some (prev.getLastD 0) else none) := by
      simp only [levenshtein_distance_bounded, if_neg hab]
    have hd : lev a.reverse b.reverse = levD a b := rfl
    rw [hunf, core b a hba, hd]

/-- The bounded distance is symmetric in its two words. -/
theorem levBounded_symm (a b : List Char) (m : Nat) :
    levenshtein_distance_bounded a b m = levenshtein_distance_bounded b a m := by
  rw [levBounded_eq, levBounded_eq, levD_symm]

/-- `isPrefixOf` is reflexive for characters. -/
theorem isPrefixOf_self : ∀ l : List Char, l.isPrefixOf l = true := by
  intro l
  induction l with
  | nil => rfl
  | cons c cs ih => simp [List.isPrefixOf, ih]

/-- Every word contains itself. -/
theorem containsSlice_refl (l : List Char) : containsSlice l l = true := by
  cases l with
  | nil => rfl
  | cons c cs =>
    rw [containsSlice.eq_def]
    simp [isPrefixOf_self]

/-- Symmetry of the similarity metric (claim C8 below). -/
theorem texts_are_similar_symm (a b : List Char) (τ : Q) :
    texts_are_similar a b τ = texts_are_similar b a τ := by
  by_cases h1 : a = b
  · subst h1; rfl
  · have h1' : ¬ (b = a) := fun h => h1 h.symm
    simp only [texts_are_similar]
    rw [if_neg h1, if_neg h1']
    simp only [Nat.min_comm b.length a.length, Nat.max_comm b.length a.length,
      Bool.or_comm (containsSlice b a) (containsSlice a b),
      levBounded_symm b a,
      show (b.length ≠ a.length) = (a.length ≠ b.length) from propext ne_comm]

/-- C8: similarity is symmetric: for every pair of keys and every threshold,
`texts_are_similar a b τ` equals `texts_are_similar b a τ`. -/
theorem c8_similarity_symmetric :
    ∀ (a b : List Char) (τ : Q), texts_are_similar a b τ = texts_are_similar b a τ :=
  texts_are_similar_symm

/-- C2 counterexample: at threshold 1 the metric still judges the distinct
keys "ab" and "a" similar (the containment heuristic ignores the threshold),
so τ = 1 does not give exact-match semantics. -/
theorem c2_exact_match_counterexample :
    texts_are_similar "ab".toList "a".toList ⟨1, 1⟩ = true ∧ "ab".toList ≠ "a".toList := by
  constructor
  · decide
  · decide

/-- C2 amended: equality always implies similarity at τ = 1, and τ = 1 gives
exact-match semantics exactly on pairs where neither key contains the other
and the shorter key has at least 6 scalars (there the Levenshtein budget
`ceil((1-τ)·maxLen)` is 0); containment and the short-text path ignore the
threshold, so other distinct pairs can still be judged similar. -/
theorem c2_exact_match_amended :
    (∀ a b : List Char, a = b → texts_are_similar a b ⟨1, 1⟩ = true) ∧
    (∀ a b : List Char, containsSlice a b = false → containsSlice b a = false →
      6 ≤ Nat.min a.length b.length →
      (texts_are_similar a b ⟨1, 1⟩ = true ↔ a = b)) := by
  constructor
  · intro a b h
    subst h
    simp [texts_are_similar]
  · intro a b hab hba hlen
    by_cases hne : a = b
    · subst hne
      rw [containsSlice_refl a] at hab
      cases hab
    · have h6 : ¬ (Nat.min a.length b.length < 6) := by omega
      simp only [texts_are_similar, if_neg hne, hab, hba, Bool.or_self, Bool.false_and,
        Bool.false_or, if_neg h6]
      have hmd : Q.ceilToNat (Q.mul (Q.sub ⟨1, 1⟩ (clamp_f64 ⟨1, 1⟩ ⟨0, 1⟩ ⟨1, 1⟩))
          (qI (Nat.max a.length b.length))) = 0 := by
        simp [clamp_f64, Q.maxQ, Q.minQ, Q.ble, Q.sub, Q.mul, Q.ceilToNat, qI]
      simp [hmd, hne]

/-- C2 witness: the amended exact-match equivalence applied to the concrete
non-containing pair "abcdef" / "abcdeg" of length 6. -/
theorem c2_exact_match_witness :
    containsSlice "abcdef".toList "abcdeg".toList = false ∧
    (texts_are_similar "abcdef".toList "abcdeg".toList ⟨1, 1⟩ = true ↔
      "abcdef".toList = "abcdeg".toList) :=
  ⟨by decide, c2_exact_match_amended.2 "abcdef".toList "abcdeg".toList
    (by decide) (by decide) (by decide)⟩

/-- C6: on distinct, mutually non-containing keys whose shorter side has fewer
than 6 scalars, similarity holds at any threshold exactly when the lengths
agree and the Levenshtein distance is at most 1; in particular the short CJK
pair differing in one character is similar at 0.85 and the pair differing in
several characters is not. -/
theorem c6_short_text_path :
    (∀ (a b : List Char) (τ : Q), a ≠ b → containsSlice a b = false →
      containsSlice b a = false → Nat.min a.length b.length < 6 →
      (texts_are_similar a b τ = true ↔ a.length = b.length ∧ levD a b ≤ 1)) ∧
    texts_are_similar "吴昊 菲菲".toList "昊昊 菲菲".toList ⟨85, 100⟩ = true ∧
    texts_are_similar "吴昊 菲菲".toList "叶昊 爸爸".toList ⟨85, 100⟩ = false := by
  refine ⟨?_, by decide, by decide⟩
  intro a b τ hne hab hba h6
  simp only [texts_are_similar, if_neg hne, hab, hba, Bool.or_self, Bool.false_and,
    Bool.false_or, if_pos h6]
  by_cases hlen : a.length = b.length
  · have hlen' : ¬ (a.length ≠ b.length) := not_not_intro hlen
    rw [if_neg hlen', levBounded_eq]
    by_cases hd : levD a b ≤ 1
    · rw [if_pos hd]
      simp [hlen, hd]
    · rw [if_neg hd]
      simp [hlen, hd]
  · rw [if_pos hlen]
    simp [hlen]

/-- C6 witness: the short-text characterization applied to the concrete CJK
pair differing in exactly one character. -/
theorem c6_short_text_witness :
    "吴昊 菲菲".toList ≠ "昊昊 菲菲".toList ∧
    (texts_are_similar "吴昊 菲菲".toList "昊昊 菲菲".toList ⟨85, 100⟩ = true ↔
      "吴昊 菲菲".toList.length = "昊昊 菲菲".toList.length ∧
        levD "吴昊 菲菲".toList "昊昊 菲菲".toList ≤ 1) :=
  ⟨by decide, c6_short_text_path.1 "吴昊 菲菲".toList "昊昊 菲菲".toList ⟨85, 100⟩
    (by decide) (by decide) (by decide) (by decide)⟩

/-- `Q.ble` agrees with the rational order on well-formed values. -/
theorem Q.ble_iff {a b : Q} (ha : Q.Pos a) (hb : Q.Pos b) :
    Q.ble a b = true ↔ a.toRat ≤ b.toRat := by
  have ha' : (0 : ℚ) < (a.den : ℚ) := by exact_mod_cast ha
  have hb' : (0 : ℚ) < (b.den : ℚ) := by exact_mod_cast hb
  rw [Q.ble, decide_eq_true_eq, Q.toRat, Q.toRat, div_le_div_iff₀ ha' hb']
  constructor <;> intro h <;> exact_mod_cast h

/-- `Q.blt` agrees with the strict rational order on well-formed values. -/
theorem Q.blt_iff {a b : Q} (ha : Q.Pos a) (hb : Q.Pos b) :
    Q.blt a b = true ↔ a.toRat < b.toRat := by
  have ha' : (0 : ℚ) < (a.den : ℚ) := by exact_mod_cast ha
  have hb' : (0 : ℚ) < (b.den : ℚ) := by exact_mod_cast hb
  rw [Q.blt, decide_eq_true_eq, Q.toRat, Q.toRat, div_lt_div_iff₀ ha' hb']
  constructor <;> intro h <;> exact_mod_cast h

/-- A failed `Q.blt` on well-formed values means the reverse weak order. -/
theorem Q.blt_false {a b : Q} (ha : Q.Pos a) (hb : Q.Pos b) (h : Q.blt a b = false) :
    b.toRat ≤ a.toRat := by
  by_contra hcon
  rw [not_le] at hcon
  rw [(Q.blt_iff ha hb).mpr hcon] at h
  cases h

/-- `Q.beqSem` agrees with rational equality on well-formed values. -/
theorem Q.beqSem_iff {a b : Q} (ha : Q.Pos a) (hb : Q.Pos b) :
    Q.beqSem a b = true ↔ a.toRat = b.toRat := by
  have ha' : (a.den : ℚ) ≠ 0 := by
    have : (0 : ℚ) < (a.den : ℚ) := by exact_mod_cast ha
    exact ne_of_gt this
  have hb' : (b.den : ℚ) ≠ 0 := by
    have : (0 : ℚ) < (b.den : ℚ) := by exact_mod_cast hb
    exact ne_of_gt this
  rw [Q.beqSem, decide_eq_true_eq, Q.toRat, Q.toRat, div_eq_div_iff ha' hb']
  constructor <;> intro h <;> exact_mod_cast h

/-- Group statistics of candidates with well-formed confidences have
well-formed, nonnegative max confidences. -/
theorem groupStats_conf_inv (cs : List SegmentCandidate)
    (hconf : ∀ c ∈ cs, Q.Pos c.confidence) :
    ∀ g ∈ groupStats cs, Q.Pos g.maxConf ∧ 0 ≤ g.maxConf.num := by
  have main : ∀ (l : List SegmentCandidate) (stats : List GroupStat),
      (∀ c ∈ l, Q.Pos c.confidence) →
      (∀ g ∈ stats, Q.Pos g.maxConf ∧ 0 ≤ g.maxConf.num) →
      ∀ g ∈ l.foldl updateStats stats, Q.Pos g.maxConf ∧ 0 ≤ g.maxConf.num := by
    intro l
    induction l with
    | nil => intro stats _ hstats g hg; exact hstats g hg
    | cons c l ih =>
      intro stats hl hstats
      refine ih (updateStats stats c) (fun d hd => hl d (List.mem_cons_of_mem c hd)) ?_
      intro g hg
      have hc := hl c (List.mem_cons_self c l)
      rw [updateStats] at hg
      by_cases hany : stats.any (fun g => g.key = c.key) = true
      · rw [if_pos hany] at hg
        rcases List.mem_map.mp hg with ⟨g0, hg0, hmap⟩
        by_cases hkey : g0.key = c.key
        · rw [if_pos hkey] at hmap
          rcases hstats g0 hg0 with ⟨hp0, hn0⟩
          by_cases hblt : Q.blt g0.maxConf c.confidence = true
          · rw [← hmap]
            simp only [hblt, if_true]
            refine ⟨hc, ?_⟩
            have hlt : (0 : Int) * (c.confidence.den : Int) <
                c.confidence.num * (g0.maxConf.den : Int) := by
              rw [Q.blt, decide_eq_true_eq] at hblt
              have h1 : (0 : Int) ≤ g0.maxConf.num * (c.confidence.den : Int) := by
                have : (0 : Int) ≤ (c.confidence.den : Int) := Int.ofNat_nonneg _
                exact Int.mul_nonneg hn0 this
              omega
            have hd : (0 : Int) < (g0.maxConf.den : Int) := by exact_mod_cast hp0
            nlinarith
          · rw [← hmap]
            simp only [hblt]
            simpa using ⟨hp0, hn0⟩
        · rw [if_neg hkey] at hmap
          exact hmap ▸ hstats g0 hg0
      · rw [if_neg hany] at hg
        rcases List.mem_append.mp hg with h | h
        · exact hstats g h
        · rcases List.mem_singleton.mp h with rfl
          by_cases hblt : Q.blt ⟨0, 1⟩ c.confidence = true
          · simp only [hblt, if_true]
            refine ⟨hc, ?_⟩
            rw [Q.blt, decide_eq_true_eq] at hblt
            simp only [Int.zero_mul, Nat.cast_one, Int.mul_one] at hblt
            exact le_of_lt hblt
          · simp only [hblt]
            exact ⟨Nat.one_pos, le_refl 0⟩
  exact main cs [] hconf (fun g hg => absurd hg (List.not_mem_nil g))

/-- Sums of well-formed values are well-formed. -/
theorem Q.Pos_add {a b : Q} (ha : Q.Pos a) (hb : Q.Pos b) : Q.Pos (Q.add a b) :=
  Nat.mul_pos ha hb

/-- Products of well-formed values are well-formed. -/
theorem Q.Pos_mul {a b : Q} (ha : Q.Pos a) (hb : Q.Pos b) : Q.Pos (Q.mul a b) :=
  Nat.mul_pos ha hb

/-- Sums of nonnegative values are nonnegative. -/
theorem Q.NN_add {a b : Q} (ha : 0 ≤ a.num) (hb : 0 ≤ b.num) : 0 ≤ (Q.add a b).num :=
  Int.add_nonneg (Int.mul_nonneg ha (Int.ofNat_nonneg _))
    (Int.mul_nonneg hb (Int.ofNat_nonneg _))

/-- Products of nonnegative values are nonnegative. -/
theorem Q.NN_mul {a b : Q} (ha : 0 ≤ a.num) (hb : 0 ≤ b.num) : 0 ≤ (Q.mul a b).num :=
  Int.mul_nonneg ha hb

/-- A minimum of well-formed values is well-formed. -/
theorem Q.Pos_minQ {a b : Q} (ha : Q.Pos a) (hb : Q.Pos b) : Q.Pos (Q.minQ a b) := by
  rw [Q.minQ]
  split_ifs <;> assumption

/-- A minimum of nonnegative values is nonnegative. -/
theorem Q.NN_minQ {a b : Q} (ha : 0 ≤ a.num) (hb : 0 ≤ b.num) : 0 ≤ (Q.minQ a b).num := by
  rw [Q.minQ]
  split_ifs <;> assumption

/-- An embedded natural is well-formed. -/
theorem qI_Pos (n : Nat) : Q.Pos (qI n) := Nat.one_pos

/-- An embedded natural is nonnegative. -/
theorem qI_NN (n : Nat) : 0 ≤ (qI n).num := Int.ofNat_nonneg n

/-- Dividing by a positive embedded natural preserves well-formedness. -/
theorem Q.Pos_div_qI {a : Q} (n : Nat) (ha : Q.Pos a) (hn : 0 < n) :
    Q.Pos (Q.div a (qI n)) := by
  rw [Q.div, if_pos (show (0 : Int) ≤ (qI n).num from Int.ofNat_nonneg n)]
  show 0 < a.den * Int.toNat ((qI n).num)
  show 0 < a.den * Int.toNat ((n : Int))
  rw [Int.toNat_ofNat]
  exact Nat.mul_pos ha hn

/-- Dividing a nonnegative value by an embedded natural stays nonnegative. -/
theorem Q.NN_div_qI {a : Q} (n : Nat) (ha : 0 ≤ a.num) :
    0 ≤ (Q.div a (qI n)).num := by
  rw [Q.div, if_pos (show (0 : Int) ≤ (qI n).num from Int.ofNat_nonneg n)]
  exact Int.mul_nonneg ha (Int.ofNat_nonneg _)

/-- Scores of well-formed groups over a positive total are well-formed and
nonnegative. -/
theorem groupScore_inv (n : Nat) (hn : 0 < n) (g : GroupStat)
    (h1 : Q.Pos g.maxConf) (h2 : 0 ≤ g.maxConf.num) :
    Q.Pos (groupScore (qI n) g) ∧ 0 ≤ (groupScore (qI n) g).num := by
  have c100 : Q.Pos (⟨5, 100⟩ : Q) := by show (0 : Nat) < 100; decide
  have c1000 : Q.Pos (⟨5, 1000⟩ : Q) := by show (0 : Nat) < 1000; decide
  have n100 : 0 ≤ ((⟨5, 100⟩ : Q)).num := by show (0 : Int) ≤ 5; decide
  have n1000 : 0 ≤ ((⟨5, 1000⟩ : Q)).num := by show (0 : Int) ≤ 5; decide
  constructor
  · exact Q.Pos_add
      (Q.Pos_add h1 (Q.Pos_mul (Q.Pos_div_qI n (qI_Pos _) hn) c100))
      (Q.Pos_minQ (Q.Pos_mul (qI_Pos _) c1000) c100)
  · exact Q.NN_add
      (Q.NN_add h2 (Q.NN_mul (Q.NN_div_qI n (qI_NN _)) n100))
      (Q.NN_minQ (Q.NN_mul (qI_NN _) n1000) n100)

/-- Well-formedness of a model value is decidable. -/
instance (a : Q) : Decidable (Q.Pos a) := Nat.decLt 0 a.den

/-- Folding one candidate into the statistics never empties them. -/
theorem updateStats_ne_nil (stats : List GroupStat) (c : SegmentCandidate) :
    updateStats stats c ≠ [] := by
  rw [updateStats]
  by_cases h : stats.any (fun g => g.key = c.key) = true
  · rw [if_pos h]
    cases stats with
    | nil => simp at h
    | cons g gs => simp
  · rw [if_neg h]
    simp

/-- Nonempty candidate lists have nonempty statistics. -/
theorem groupStats_ne_nil (cs : List SegmentCandidate) (h : cs ≠ []) :
    groupStats cs ≠ [] := by
  have main : ∀ (l : List SegmentCandidate) (stats : List GroupStat), stats ≠ [] →
      l.foldl updateStats stats ≠ [] := by
    intro l
    induction l with
    | nil => intro stats h; exact h
    | cons c l ih =>
      intro stats _
      exact ih (updateStats stats c) (updateStats_ne_nil stats c)
  cases cs with
  | nil => exact absurd rfl h
  | cons c cs => exact main cs (updateStats [] c) (updateStats_ne_nil [] c)

/-- The selection fold's step function. -/
def selStep (total : Q) (acc : Option (List Char × Q) × Q) (g : GroupStat) :
    Option (List Char × Q) × Q :=
  if Q.blt acc.2 (groupScore total g) then (some (g.textAtMax, g.maxConf), groupScore total g)
  else acc

/-- `selectFromStats` is the first component of the `selStep` fold. -/
theorem selectFromStats_eq (total : Q) (stats : List GroupStat) :
    selectFromStats total stats = (stats.foldl (selStep total) (none, ⟨-1, 1⟩)).1 := rfl

/-- The fold ignores groups that never beat the running best score. -/
theorem selFold_skip (total : Q) :
    ∀ (stats : List GroupStat) (acc : Option (List Char × Q) × Q),
      (∀ g ∈ stats, Q.blt acc.2 (groupScore total g) = false) →
      stats.foldl (selStep total) acc = acc := by
  intro stats
  induction stats with
  | nil => intro acc _; rfl
  | cons g stats ih =>
    intro acc h
    rw [List.foldl_cons]
    have hg := h g (List.mem_cons_self g stats)
    rw [show selStep total acc g = acc from by simp [selStep, hg]]
    exact ih acc (fun g' hg' => h g' (List.mem_cons_of_mem g hg'))

/-- When some group beats the running best, the fold returns a score-maximal
group of the list (the strict-improvement rule makes the winner a maximum). -/
theorem selFold_max (total : Q) :
    ∀ (stats : List GroupStat) (acc : Option (List Char × Q)) (b : Q),
      Q.Pos b →
      (∀ g ∈ stats, Q.Pos (groupScore total g)) →
      (∃ g ∈ stats, Q.blt b (groupScore total g) = true) →
      ∃ gbest, gbest ∈ stats ∧
        (∀ g' ∈ stats, (groupScore total g').toRat ≤ (groupScore total gbest).toRat) ∧
        b.toRat < (groupScore total gbest).toRat ∧
        stats.foldl (selStep total) (acc, b) =
          (some (gbest.textAtMax, gbest.maxConf), groupScore total gbest) := by
  intro stats
  induction stats with
  | nil =>
    rintro acc b _ _ ⟨g, hg, _⟩
    cases hg
  | cons g stats ih =>
    rintro acc b hbPos hPos hex
    have hgPos := hPos g (List.mem_cons_self g stats)
    have hPos' : ∀ g' ∈ stats, Q.Pos (groupScore total g') :=
      fun g' h => hPos g' (List.mem_cons_of_mem g h)
    rw [List.foldl_cons]
    by_cases hbeat : Q.blt b (groupScore total g) = true
    · rw [show selStep total (acc, b) g =
        (some (g.textAtMax, g.maxConf), groupScore total g) from by simp [selStep, hbeat]]
      by_cases hrest : ∃ g' ∈ stats, Q.blt (groupScore total g) (groupScore total g') = true
      · obtain ⟨gb, hmem, hmax, hgt, heq⟩ :=
          ih (some (g.textAtMax, g.maxConf)) (groupScore total g) hgPos hPos' hrest
        refine ⟨gb, List.mem_cons_of_mem g hmem, ?_, ?_, heq⟩
        · intro g' hg'
          rcases List.mem_cons.mp hg' with rfl | hmem'
          · exact le_of_lt hgt
          · exact hmax g' hmem'
        · exact lt_trans ((Q.blt_iff hbPos hgPos).mp hbeat) hgt
      · have hall : ∀ g' ∈ stats, Q.blt (groupScore total g) (groupScore total g') = false := by
          intro g' hg'
          rcases Bool.eq_false_or_eq_true (Q.blt (groupScore total g) (groupScore total g'))
            with h | h
          · exact absurd ⟨g', hg', h⟩ hrest
          · exact h
        rw [selFold_skip total stats _ hall]
        refine ⟨g, List.mem_cons_self g stats, ?_, (Q.blt_iff hbPos hgPos).mp hbeat, rfl⟩
        intro g' hg'
        rcases List.mem_cons.mp hg' with rfl | hmem'
        · exact le_refl _
        · exact Q.blt_false hgPos (hPos' g' hmem') (hall g' hmem')
    · have hbeat' : Q.blt b (groupScore total g) = false := by
        rcases Bool.eq_false_or_eq_true (Q.blt b (groupScore total g)) with h | h
        · exact absurd h hbeat
        · exact h
      rw [show selStep total (acc, b) g = (acc, b) from by simp [selStep, hbeat']]
      have hex' : ∃ g' ∈ stats, Q.blt b (groupScore total g') = true := by
        rcases hex with ⟨g', hg', hb'⟩
        rcases List.mem_cons.mp hg' with rfl | hmem'
        · exact absurd hb' hbeat
        · exact ⟨g', hmem', hb'⟩
      obtain ⟨gb, hmem, hmax, hgt, heq⟩ := ih acc b hbPos hPos' hex'
      refine ⟨gb, List.mem_cons_of_mem g hmem, ?_, hgt, heq⟩
      intro g' hg'
      rcases List.mem_cons.mp hg' with rfl | hmem'
      · exact le_trans (Q.blt_false hbPos hgPos hbeat') (le_of_lt hgt)
      · exact hmax g' hmem'

/-- On a nonempty statistics list with well-formed nonnegative scores the
selection returns the text and confidence of a score-maximal group. -/
theorem selectFromStats_spec (total : Q) (stats : List GroupStat)
    (hne : stats ≠ [])
    (hPos : ∀ g ∈ stats, Q.Pos (groupScore total g))
    (hNN : ∀ g ∈ stats, 0 ≤ (groupScore total g).num) :
    ∃ gbest, gbest ∈ stats ∧
      (∀ g' ∈ stats, (groupScore total g').toRat ≤ (groupScore total gbest).toRat) ∧
      selectFromStats total stats = some (gbest.textAtMax, gbest.maxConf) := by
  cases stats with
  | nil => exact absurd rfl hne
  | cons g0 stats =>
    have hp := hPos g0 (List.mem_cons_self _ _)
    have hn := hNN g0 (List.mem_cons_self _ _)
    have hbeat : Q.blt ⟨-1, 1⟩ (groupScore total g0) = true := by
      rw [Q.blt, decide_eq_true_eq]
      have hd : (0 : Int) < ((groupScore total g0).den : Int) := by exact_mod_cast hp
      simp only [Nat.cast_one, Int.mul_one]
      omega
    obtain ⟨gb, hmem, hmax, _, heq⟩ := selFold_max total (g0 :: stats) none ⟨-1, 1⟩
      Nat.one_pos hPos ⟨g0, List.mem_cons_self _ _, hbeat⟩
    refine ⟨gb, hmem, hmax, ?_⟩
    rw [selectFromStats_eq, heq]

/-- A list pairwise-distinct under a valuation admits no two distinct members
with equal value. -/
theorem pairwise_value_inj {α : Type} (f : α → ℚ) :
    ∀ s : List α, s.Pairwise (fun x y => f x ≠ f y) →
      ∀ x ∈ s, ∀ y ∈ s, f x = f y → x = y := by
  intro s
  induction s with
  | nil => intro _ x hx; cases hx
  | cons a s ih =>
    intro hp x hx y hy hf
    rcases List.pairwise_cons.mp hp with ⟨ha, hs⟩
    rcases List.mem_cons.mp hx with rfl | hx' <;> rcases List.mem_cons.mp hy with rfl | hy'
    · rfl
    · exact absurd hf (ha y hy')
    · exact absurd hf.symm (ha x hx')
    · exact ih hs x hx' y hy' hf

/-- The per-segment selection is independent of the hash iteration order as
soon as no two groups tie on composite score. -/
theorem select_eq_of_perm (cs : List SegmentCandidate)
    (ord₁ ord₂ : List GroupStat → List GroupStat)
    (h₁ : (ord₁ (groupStats cs)).Perm (groupStats cs))
    (h₂ : (ord₂ (groupStats cs)).Perm (groupStats cs))
    (hconf : ∀ c ∈ cs, Q.Pos c.confidence)
    (hdist : (groupStats cs).Pairwise (fun g g' =>
      Q.beqSem (groupScore (qI cs.length) g) (groupScore (qI cs.length) g') = false)) :
    select_segment_text ord₁ cs = select_segment_text ord₂ cs := by
  by_cases hcs : cs.isEmpty
  · simp [select_segment_text, hcs]
  · have hne : cs ≠ [] := by
      cases cs
      · simp at hcs
      · exact List.cons_ne_nil _ _
    have hlen : 0 < cs.length := List.length_pos.mpr hne
    have hstat := groupStats_conf_inv cs hconf
    have hscore : ∀ g ∈ groupStats cs, Q.Pos (groupScore (qI cs.length) g) ∧
        0 ≤ (groupScore (qI cs.length) g).num := by
      intro g hg
      rcases hstat g hg with ⟨hp, hn⟩
      exact groupScore_inv cs.length hlen g hp hn
    have hsne := groupStats_ne_nil cs hne
    have spec : ∀ (p : List GroupStat), p.Perm (groupStats cs) →
        ∃ gbest, gbest ∈ groupStats cs ∧
          (∀ g' ∈ groupStats cs,
            (groupScore (qI cs.length) g').toRat ≤ (groupScore (qI cs.length) gbest).toRat) ∧
          selectFromStats (qI cs.length) p = some (gbest.textAtMax, gbest.maxConf) := by
      intro p hp
      have hpne : p ≠ [] := by
        intro hp0
        subst hp0
        exact hsne (hp.symm.eq_nil)
      obtain ⟨gb, hmem, hmax, heq⟩ := selectFromStats_spec (qI cs.length) p hpne
        (fun g hg => (hscore g (hp.mem_iff.mp hg)).1)
        (fun g hg => (hscore g (hp.mem_iff.mp hg)).2)
      refine ⟨gb, hp.mem_iff.mp hmem, ?_, heq⟩
      intro g' hg'
      exact hmax g' (hp.mem_iff.mpr hg')
    obtain ⟨g1, hm1, hmax1, he1⟩ := spec (ord₁ (groupStats cs)) h₁
    obtain ⟨g2, hm2, hmax2, he2⟩ := spec (ord₂ (groupStats cs)) h₂
    have hvals : (groupScore (qI cs.length) g1).toRat = (groupScore (qI cs.length) g2).toRat :=
      le_antisymm (hmax2 g1 hm1) (hmax1 g2 hm2)
    have hdist' : (groupStats cs).Pairwise (fun g g' =>
        (groupScore (qI cs.length) g).toRat ≠ (groupScore (qI cs.length) g').toRat) := by
      refine List.Pairwise.imp_of_mem ?_ hdist
      intro a b ha hb hfalse heqv
      have hq := (Q.beqSem_iff (hscore a ha).1 (hscore b hb).1).mpr heqv
      rw [hfalse] at hq
      cases hq
    have hg12 : g1 = g2 :=
      pairwise_value_inj (fun g => (groupScore (qI cs.length) g).toRat)
        (groupStats cs) hdist' g1 hm1 g2 hm2 hvals
    have hemp : cs.isEmpty = false := by
      cases cs
      · simp at hcs
      · rfl
    simp only [select_segment_text, hemp, Bool.false_eq_true, if_false]
    rw [he1, he2, hg12]

/-- C7: for every nonempty candidate list with well-formed confidences and
every hash iteration order, the selector returns the display text recorded at
the maximum confidence of a composite-score-maximal group, paired with that
group's raw maximum confidence; the empty candidate list selects nothing. -/
theorem c7_selector_picks_max_score_group :
    (∀ (ord : List GroupStat → List GroupStat) (cs : List SegmentCandidate),
      cs = [] → select_segment_text ord cs = none) ∧
    (∀ (ord : List GroupStat → List GroupStat) (cs : List SegmentCandidate),
      cs ≠ [] → (∀ c ∈ cs, Q.Pos c.confidence) →
      (ord (groupStats cs)).Perm (groupStats cs) →
      ∃ g, g ∈ groupStats cs ∧
        (∀ g' ∈ groupStats cs,
          (groupScore (qI cs.length) g').toRat ≤ (groupScore (qI cs.length) g).toRat) ∧
        select_segment_text ord cs = some (g.textAtMax, g.maxConf)) := by
  constructor
  · intro ord cs h
    subst h
    rfl
  · intro ord cs hne hconf hperm
    have hlen : 0 < cs.length := List.length_pos.mpr hne
    have hstat := groupStats_conf_inv cs hconf
    have hscore : ∀ g ∈ groupStats cs, Q.Pos (groupScore (qI cs.length) g) ∧
        0 ≤ (groupScore (qI cs.length) g).num := by
      intro g hg
      rcases hstat g hg with ⟨hp, hn⟩
      exact groupScore_inv cs.length hlen g hp hn
    have hsne := groupStats_ne_nil cs hne
    have hpne : ord (groupStats cs) ≠ [] := by
      intro hp0
      rw [hp0] at hperm
      exact hsne (hperm.symm.eq_nil)
    obtain ⟨gb, hmem, hmax, heq⟩ := selectFromStats_spec (qI cs.length) (ord (groupStats cs))
      hpne
      (fun g hg => (hscore g (hperm.mem_iff.mp hg)).1)
      (fun g hg => (hscore g (hperm.mem_iff.mp hg)).2)
    refine ⟨gb, hperm.mem_iff.mp hmem, ?_, ?_⟩
    · intro g' hg'
      exact hmax g' (hperm.mem_iff.mpr hg')
    · have hemp : cs.isEmpty = false := by
        cases cs
        · exact absurd rfl hne
        · rfl
      show (if cs.isEmpty then none
        else selectFromStats (qI cs.length) (ord (groupStats cs))) = _
      rw [hemp]
      show selectFromStats (qI cs.length) (ord (groupStats cs)) = _
      exact heq

/-- The concrete one-candidate list used to witness the selector claim. -/
def c7cand : SegmentCandidate :=
  { key := "hi".toList, text := "hi".toList, confidence := ⟨9, 10⟩ }

/-- C7 witness: the selector applied to a concrete one-candidate list. -/
theorem c7_selector_witness :
    ([c7cand] ≠ []) ∧
    ∃ g, g ∈ groupStats [c7cand] ∧
      (∀ g' ∈ groupStats [c7cand],
        (groupScore (qI 1) g').toRat ≤ (groupScore (qI 1) g).toRat) ∧
      select_segment_text idOrd [c7cand] = some (g.textAtMax, g.maxConf) :=
  ⟨by decide, c7_selector_picks_max_score_group.2 idOrd _
    (by decide) (by decide) (List.Perm.refl _)⟩

/-- The entry-building fold's step function. -/
def buildStep (ord : List GroupStat → List GroupStat) (step : Option Nat) (fps : Q)
    (acc : List OcrSubtitleEntry) (seg : SubtitleSegment) : List OcrSubtitleEntry :=
  match select_segment_text ord seg.candidates with
  | none => acc
  | some sel =>
    acc ++ [{ id := subId (acc.length + 1)
              text := sel.1
              start_time := seg.start_time
              end_time := segment_end_time_ms seg.start_time seg.last_seen_time
                seg.last_seen_frame_index step fps
              confidence := sel.2 }]

/-- `buildEntries` is the `buildStep` fold. -/
theorem buildEntries_eq (ord : List GroupStat → List GroupStat) (step : Option Nat) (fps : Q)
    (segs : List SubtitleSegment) :
    buildEntries ord step fps segs = segs.foldl (buildStep ord step fps) [] := rfl

/-- Entry building is unchanged when every segment selects the same text. -/
theorem buildEntries_congr (ord₁ ord₂ : List GroupStat → List GroupStat) (step : Option Nat)
    (fps : Q) :
    ∀ (segs : List SubtitleSegment) (acc : List OcrSubtitleEntry),
      (∀ seg ∈ segs, select_segment_text ord₁ seg.candidates =
        select_segment_text ord₂ seg.candidates) →
      segs.foldl (buildStep ord₁ step fps) acc = segs.foldl (buildStep ord₂ step fps) acc := by
  intro segs
  induction segs with
  | nil => intro acc _; rfl
  | cons seg segs ih =>
    intro acc h
    rw [List.foldl_cons, List.foldl_cons,
      show buildStep ord₁ step fps acc seg = buildStep ord₂ step fps acc seg from by
        rw [buildStep, buildStep, h seg (List.mem_cons_self seg segs)]]
    exact ih _ (fun s hs => h s (List.mem_cons_of_mem seg hs))

/-- C9 counterexample: with the two tied candidate groups "abcde" / "abcdf"
(equal confidence, count and length), two legitimate hash iteration orders
give different outputs, so two runs of `generate_subtitles_core` on the same
input need not agree when composite scores tie. -/
theorem c9_determinism_counterexample :
    (∀ l : List GroupStat, (idOrd l).Perm l) ∧
    (∀ l : List GroupStat, (l.reverse).Perm l) ∧
    generate_subtitles_core idOrd
        [tFrame 0 0 "abcde" 90 100, tFrame 1 100 "abcdf" 90 100] ⟨10, 1⟩ ⟨1, 2⟩
        ⟨true, ⟨92, 100⟩, 250, 500, false⟩ ≠
      generate_subtitles_core (fun l => l.reverse)
        [tFrame 0 0 "abcde" 90 100, tFrame 1 100 "abcdf" 90 100] ⟨10, 1⟩ ⟨1, 2⟩
        ⟨true, ⟨92, 100⟩, 250, 500, false⟩ :=
  ⟨fun l => List.Perm.refl l, fun l => List.reverse_perm l, by decide⟩

/-- C9 amended: the stabilizer and cleanup pass are deterministic up to the
hash iteration order of the per-segment group statistics, and the iteration
order is irrelevant whenever no two groups of any segment tie on composite
score: any two such runs return identical entry lists. -/
theorem c9_deterministic_without_ties :
    ∀ (frames : List OcrFrameResult) (fps minConfidence : Q)
      (cleanup : OcrSubtitleCleanupOptions) (ord₁ ord₂ : List GroupStat → List GroupStat),
      (∀ l, (ord₁ l).Perm l) → (∀ l, (ord₂ l).Perm l) →
      (∀ seg ∈ stabilizedSegments frames minConfidence cleanup,
        (∀ c ∈ seg.candidates, Q.Pos c.confidence) ∧
        (groupStats seg.candidates).Pairwise (fun g g' =>
          Q.beqSem (groupScore (qI seg.candidates.length) g)
            (groupScore (qI seg.candidates.length) g') = false)) →
      generate_subtitles_core ord₁ frames fps minConfidence cleanup =
        generate_subtitles_core ord₂ frames fps minConfidence cleanup := by
  intro frames fps minc cleanup ord₁ ord₂ hp₁ hp₂ hsegs
  have hsel : ∀ seg ∈ stabilizedSegments frames minc cleanup,
      select_segment_text ord₁ seg.candidates = select_segment_text ord₂ seg.candidates := by
    intro seg hseg
    rcases hsegs seg hseg with ⟨hconf, hdist⟩
    exact select_eq_of_perm seg.candidates ord₁ ord₂ (hp₁ _) (hp₂ _) hconf hdist
  have hbuild : buildEntries ord₁ (infer_frame_step_ms (frames.map (fun f => f.time_ms))) fps
      (stabilizedSegments frames minc cleanup) =
      buildEntries ord₂ (infer_frame_step_ms (frames.map (fun f => f.time_ms))) fps
      (stabilizedSegments frames minc cleanup) := by
    rw [buildEntries_eq, buildEntries_eq]
    exact buildEntries_congr ord₁ ord₂ _ fps (stabilizedSegments frames minc cleanup) [] hsel
  have hpre : preMergeEntries ord₁ frames fps minc cleanup =
      preMergeEntries ord₂ frames fps minc cleanup := by
    rw [preMergeEntries, preMergeEntries, hbuild]
  rw [generate_subtitles_core, generate_subtitles_core, hpre]

/-- C9 witness: on a concrete one-frame input with a single candidate group
the no-ties hypothesis holds and both hash orders give the same output. -/
theorem c9_without_ties_witness :
    (∀ seg ∈ stabilizedSegments [tFrame 0 0 "Hello" 90 100] ⟨1, 2⟩ defaultCleanup,
      (∀ c ∈ seg.candidates, Q.Pos c.confidence) ∧
      (groupStats seg.candidates).Pairwise (fun g g' =>
        Q.beqSem (groupScore (qI seg.candidates.length) g)
          (groupScore (qI seg.candidates.length) g') = false)) ∧
    generate_subtitles_core idOrd [tFrame 0 0 "Hello" 90 100] ⟨2, 1⟩ ⟨1, 2⟩ defaultCleanup =
      generate_subtitles_core (fun l => l.reverse) [tFrame 0 0 "Hello" 90 100] ⟨2, 1⟩ ⟨1, 2⟩
        defaultCleanup :=
  ⟨by decide, c9_deterministic_without_ties [tFrame 0 0 "Hello" 90 100] ⟨2, 1⟩ ⟨1, 2⟩
    defaultCleanup idOrd (fun l => l.reverse) (fun l => List.Perm.refl l)
    (fun l => List.reverse_perm l) (by decide)⟩

/-- C3: when the active segment receives a valid in-gap observation whose key
is dissimilar to the baseline but one of the next two observations is valid
and similar to the current baseline, the step treats it as a blip: no segment
is closed, no candidate is recorded, and only `last_seen_time` /
`last_seen_frame_index` advance to this frame; concretely, Scenario B (three
frames at 0/500/1000 ms with a glitched middle reading, threshold 0.95, max
gap 1000 ms) yields exactly one entry starting at 0. -/
theorem c3_blip_absorption :
    (∀ (ms : Bool) (τ : Q) (maxGap : Nat) (minConf : Q) (f : OcrFrameResult)
      (next1 next2 : Option OcrFrameResult) (st : StabState) (seg : SubtitleSegment),
      st.current = some seg →
      frameValid minConf f = true →
      f.time_ms - seg.last_seen_time ≤ maxGap →
      similarInCore ms τ seg.baseline_key (keyOf f) = false →
      (lookHit ms τ minConf seg.baseline_key next1 ||
        lookHit ms τ minConf seg.baseline_key next2) = true →
      stabilizeStep ms τ maxGap minConf f next1 next2 st =
        { st with current := some { seg with
            last_seen_time := f.time_ms
            last_seen_frame_index := f.frame_index } }) ∧
    view (generate_subtitles_core idOrd
      [tFrame 0 0 "Je suis une longue phrase" 95 100,
       tFrame 1 500 "Je su1s unel0ngu phrase" 96 100,
       tFrame 2 1000 "Je suis une longue phrase" 95 100] ⟨2, 1⟩ ⟨1, 2⟩
      ⟨true, ⟨95, 100⟩, 1000, 500, false⟩) =
      some [("sub-1", "Je suis une longue phrase".toList, 0, 1500)] := by
  constructor
  · intro ms τ maxGap minConf f next1 next2 st seg hcur hval hgap hsim hlook
    rcases st with ⟨segs, cur⟩
    obtain rfl : cur = some seg := hcur
    simp only [stabilizeStep, hval, Bool.not_true, Bool.false_eq_true, if_false, hsim, hlook,
      if_true]
    rw [if_neg (by omega)]
  · decide

/-- C3 witness: the blip step applied concretely to Scenario B's middle frame
against the segment opened by its first frame. -/
theorem c3_blip_witness :
    similarInCore true ⟨95, 100⟩
      (newSegmentOf (tFrame 0 0 "Je suis une longue phrase" 95 100)).baseline_key
      (keyOf (tFrame 1 500 "Je su1s unel0ngu phrase" 96 100)) = false ∧
    stabilizeStep true ⟨95, 100⟩ 1000 ⟨1, 2⟩ (tFrame 1 500 "Je su1s unel0ngu phrase" 96 100)
      (some (tFrame 2 1000 "Je suis une longue phrase" 95 100)) none
      ⟨[], some (newSegmentOf (tFrame 0 0 "Je suis une longue phrase" 95 100))⟩ =
      ⟨[], some { newSegmentOf (tFrame 0 0 "Je suis une longue phrase" 95 100) with
          last_seen_time := 500
          last_seen_frame_index := 1 }⟩ :=
  ⟨by decide, c3_blip_absorption.1 true ⟨95, 100⟩ 1000 ⟨1, 2⟩
    (tFrame 1 500 "Je su1s unel0ngu phrase" 96 100)
    (some (tFrame 2 1000 "Je suis une longue phrase" 95 100)) none
    ⟨[], some (newSegmentOf (tFrame 0 0 "Je suis une longue phrase" 95 100))⟩
    (newSegmentOf (tFrame 0 0 "Je suis une longue phrase" 95 100))
    rfl (by decide) (by decide) (by decide) (by decide)⟩

/-- C4 counterexample: with frame times 0, 0, 500 there is exactly one usable
(positive) delta, so the claim mandates the fps fallback
`(last_seen_frame_index + 1) × (1000/fps) = 3000`; the code instead emits
`last_seen_time + delta = 1000`. -/
theorem c4_end_time_counterexample :
    (positiveDeltas ([tFrame 0 0 "Hello" 90 100, tFrame 1 0 "Hello" 90 100,
      tFrame 2 500 "Hello" 90 100].map (fun f => f.time_ms))).length = 1 ∧
    frame_end_time_ms 2 ⟨1, 1⟩ = 3000 ∧
    view (generate_subtitles_core idOrd
      [tFrame 0 0 "Hello" 90 100, tFrame 1 0 "Hello" 90 100, tFrame 2 500 "Hello" 90 100]
      ⟨1, 1⟩ ⟨1, 2⟩ ⟨true, ⟨92, 100⟩, 1000, 500, false⟩) =
      some [("sub-1", "Hello".toList, 0, 1000)] ∧
    (1000 : Nat) ≠ 3000 := by
  refine ⟨by decide, by decide, by decide, by decide⟩

/-- C4 amended: the inferred step is the upper median (index `len/2` of the
ascending-sorted list) of the positive inter-observation deltas and is used
whenever the input has at least two frames and at least one positive delta;
the `(last_seen_frame_index + 1) × (1000/fps)` fallback applies exactly when
there are fewer than two frames or no positive delta; the emitted end time is
the chosen base value clamped below by `start_time + 1`, so it always exceeds
`start_time`. -/
theorem c4_end_time_amended :
    (∀ times : List Nat,
      times.length < 2 ∨ positiveDeltas times = [] → infer_frame_step_ms times = none) ∧
    (∀ times : List Nat, 2 ≤ times.length → positiveDeltas times ≠ [] →
      infer_frame_step_ms times =
        some ((sortNat (positiveDeltas times)).getD
          ((sortNat (positiveDeltas times)).length / 2) 0)) ∧
    (∀ (start last idx : Nat) (step : Option Nat) (fps : Q),
      (∀ s, step = some s → segment_end_time_ms start last idx step fps =
        Nat.max (last + s) (start + 1)) ∧
      (step = none → segment_end_time_ms start last idx step fps =
        Nat.max (frame_end_time_ms idx fps) (start + 1)) ∧
      start < segment_end_time_ms start last idx step fps) := by
  refine ⟨?_, ?_, ?_⟩
  · intro times h
    rcases h with h | h
    · rw [infer_frame_step_ms, if_pos h]
    · rw [infer_frame_step_ms]
      split_ifs with h2
      · rfl
      · simp only [h]
        rfl
  · intro times h1 h2
    rw [infer_frame_step_ms, if_neg (by omega)]
    simp [h2]
  · intro start last idx step fps
    refine ⟨?_, ?_, ?_⟩
    · intro s hs
      subst hs
      rw [segment_end_time_ms]
      split_ifs <;>
        first
          | exact (Nat.max_eq_right (by omega)).symm
          | exact (Nat.max_eq_left (by omega)).symm
    · intro hs
      subst hs
      rw [segment_end_time_ms]
      split_ifs <;>
        first
          | exact (Nat.max_eq_right (by omega)).symm
          | exact (Nat.max_eq_left (by omega)).symm
    · cases step <;> (rw [segment_end_time_ms]; split_ifs <;> omega)

/-- C4 witness: the amended characterization at the concrete time list
0, 0, 500 and the resulting segment end time. -/
theorem c4_end_time_witness :
    (positiveDeltas [0, 0, 500] ≠ [] ∧
      infer_frame_step_ms [0, 0, 500] =
        some ((sortNat (positiveDeltas [0, 0, 500])).getD
          ((sortNat (positiveDeltas [0, 0, 500])).length / 2) 0)) ∧
    segment_end_time_ms 0 500 2 (some 500) ⟨1, 1⟩ = Nat.max (500 + 500) (0 + 1) :=
  ⟨⟨by decide, c4_end_time_amended.2.1 [0, 0, 500] (by decide) (by decide)⟩,
    (c4_end_time_amended.2.2 0 500 2 (some 500) ⟨1, 1⟩).1 500 rfl⟩

/-- The merge-pass output produced by the C5 counterexample input. -/
def c5out : List OcrSubtitleEntry :=
  [{ id := "sub-1", text := "Hello world".toList, start_time := 0, end_time := 600,
     confidence := ⟨95, 100⟩ },
   { id := "sub-2", text := "Hello worlds".toList, start_time := 600, end_time := 1800,
     confidence := ⟨96, 100⟩ }]

/-- C5 counterexample: this three-segment run merges its last two entries and
replaces the survivor's text with the absorbed higher-confidence "Hello
worlds"; the new text is containment-similar to the first entry, so applying
the same merge-and-renumber step to the output merges again and returns a
different (shorter) list. -/
theorem c5_merge_idempotence_counterexample :
    generate_subtitles_core idOrd
      [tFrame 0 0 "Hello world" 95 100, tFrame 1 600 "Hellp worlds" 90 100,
       tFrame 2 1200 "Hello worlds" 96 100] ⟨2, 1⟩ ⟨1, 2⟩
      ⟨true, ⟨91, 100⟩, 250, 500, false⟩ = some c5out ∧
    mergeAndRenumber (effThreshold ⟨true, ⟨91, 100⟩, 250, 500, false⟩) 250 500 c5out ≠
      c5out := by
  constructor
  · decide
  · decide

/-- One merge step grows the accumulator by at most one entry. -/
theorem mergeInto_length (τ : Q) (maxGap minCue : Nat) (acc : List OcrSubtitleEntry)
    (s : OcrSubtitleEntry) :
    (mergeInto τ maxGap minCue acc s).length ≤ acc.length + 1 := by
  rw [mergeInto]
  cases h : acc.getLast? with
  | none => simp
  | some prev =>
    dsimp only
    split_ifs <;> simp

/-- The merge fold never yields more entries than it consumes. -/
theorem mergeFold_length (τ : Q) (maxGap minCue : Nat) :
    ∀ (l : List OcrSubtitleEntry) (acc : List OcrSubtitleEntry),
      (l.foldl (mergeInto τ maxGap minCue) acc).length ≤ acc.length + l.length := by
  intro l
  induction l with
  | nil => intro acc; simp
  | cons s l ih =>
    intro acc
    rw [List.foldl_cons]
    have h1 := ih (mergeInto τ maxGap minCue acc s)
    have h2 := mergeInto_length τ maxGap minCue acc s
    simp only [List.length_cons]
    omega

/-- C5 amended: the merge-and-renumber step is not idempotent (text
replacement during a merge can make the survivor newly similar to its left
neighbour, as the counterexample shows); reapplying it can only merge
further, never split: its output is never longer than its input. -/
theorem c5_merge_length_amended :
    ∀ (τ : Q) (maxGap minCue : Nat) (l : List OcrSubtitleEntry),
      (mergeAndRenumber τ maxGap minCue l).length ≤ l.length := by
  intro τ maxGap minCue l
  rw [mergeAndRenumber, renumber]
  have h := mergeFold_length τ maxGap minCue l []
  simp only [List.length_map, List.enum_length]
  simpa using h

/-- Renumbering makes the ids exactly `sub-1 .. sub-n`. -/
theorem renumber_ids (l : List OcrSubtitleEntry) :
    (renumber l).map (fun e => e.id) = (List.range l.length).map (fun i => subId (i + 1)) := by
  calc (l.enum.map (fun p => ({ p.2 with id := subId (p.1 + 1) } : OcrSubtitleEntry))).map
        (fun e => e.id)
      = l.enum.map (fun p => subId (p.1 + 1)) := by rw [List.map_map]; rfl
    _ = (l.enum.map Prod.fst).map (fun i => subId (i + 1)) := by rw [List.map_map]; rfl
    _ = (List.range l.length).map (fun i => subId (i + 1)) := by rw [List.enum_map_fst]

/-- Renumbering preserves the number of entries. -/
theorem renumber_length (l : List OcrSubtitleEntry) : (renumber l).length = l.length := by
  simp [renumber, List.enum_length]

/-- The entry-building fold assigns the consecutive ids
`sub-(|acc|+1), sub-(|acc|+2), ...` to whatever it appends. -/
theorem buildFold_ids (ord : List GroupStat → List GroupStat) (step : Option Nat) (fps : Q) :
    ∀ (segs : List SubtitleSegment) (acc : List OcrSubtitleEntry),
      ∃ m, (segs.foldl (buildStep ord step fps) acc).map (fun e => e.id) =
        acc.map (fun e => e.id) ++ (List.range' (acc.length + 1) m).map subId := by
  intro segs
  induction segs with
  | nil =>
    intro acc
    exact ⟨0, by simp⟩
  | cons seg segs ih =>
    intro acc
    rw [List.foldl_cons]
    cases hsel : select_segment_text ord seg.candidates with
    | none =>
      rw [show buildStep ord step fps acc seg = acc from by rw [buildStep, hsel]]
      exact ih acc
    | some sel =>
      rw [show buildStep ord step fps acc seg =
        acc ++ [(⟨subId (acc.length + 1), sel.1, seg.start_time,
          segment_end_time_ms seg.start_time seg.last_seen_time
            seg.last_seen_frame_index step fps, sel.2⟩ : OcrSubtitleEntry)] from by
        rw [buildStep, hsel]]
      obtain ⟨m', hm'⟩ := ih (acc ++ [(⟨subId (acc.length + 1), sel.1, seg.start_time,
        segment_end_time_ms seg.start_time seg.last_seen_time
          seg.last_seen_frame_index step fps, sel.2⟩ : OcrSubtitleEntry)])
      refine ⟨m' + 1, ?_⟩
      rw [hm']
      simp [List.range'_succ, List.append_assoc]

/-- Pre-merge (post-filter) entry ids are `sub-k` for a strictly increasing
sequence of naturals. -/
theorem preMerge_ids (ord : List GroupStat → List GroupStat) (frames : List OcrFrameResult)
    (fps minc : Q) (cleanup : OcrSubtitleCleanupOptions) :
    ∃ ks : List Nat, (preMergeEntries ord frames fps minc cleanup).map (fun e => e.id) =
      ks.map subId ∧ ks.Chain' (fun a b => a < b) := by
  obtain ⟨m, hm⟩ := buildFold_ids ord
    (infer_frame_step_ms (frames.map (fun f => f.time_ms))) fps
    (stabilizedSegments frames minc cleanup) []
  simp only [List.map_nil, List.nil_append, List.length_nil, Nat.zero_add] at hm
  have hsub : (preMergeEntries ord frames fps minc cleanup).map (fun e => e.id) |>.Sublist
      ((buildEntries ord (infer_frame_step_ms (frames.map (fun f => f.time_ms))) fps
        (stabilizedSegments frames minc cleanup)).map (fun e => e.id)) := by
    rw [preMergeEntries]
    split_ifs
    · exact List.Sublist.map _ (List.filter_sublist _)
    · exact List.Sublist.refl _
  rw [buildEntries_eq, hm] at hsub
  obtain ⟨ks, hks, heq⟩ := List.sublist_map_iff.mp hsub
  exact ⟨ks, heq, (List.Pairwise.sublist hks (List.pairwise_lt_range' 1 m)).chain'⟩

/-- C10: every output id is `sub-k` with `k` strictly increasing in output
order; when the merge step actually runs (merging enabled and more than one
entry survives the URL filter) the ids are renumbered to exactly
`sub-1 .. sub-n`; with merging disabled the ids are assigned before the URL
filter, so a dropped URL-like entry leaves a gap and the sole survivor of the
concrete URL input is named `sub-2`.  (The converse direction of the claim's
"exactly when" is false, see the counterexample.) -/
theorem c10_entry_ids :
    (∀ (ord : List GroupStat → List GroupStat) (frames : List OcrFrameResult)
      (fps minc : Q) (cleanup : OcrSubtitleCleanupOptions) (l : List OcrSubtitleEntry),
      generate_subtitles_core ord frames fps minc cleanup = some l →
      ∃ ks : List Nat, l.map (fun e => e.id) = ks.map subId ∧
        ks.Chain' (fun a b => a < b)) ∧
    (∀ (ord : List GroupStat → List GroupStat) (frames : List OcrFrameResult)
      (fps minc : Q) (cleanup : OcrSubtitleCleanupOptions) (l : List OcrSubtitleEntry),
      cleanup.merge_similar = true →
      1 < (preMergeEntries ord frames fps minc cleanup).length →
      generate_subtitles_core ord frames fps minc cleanup = some l →
      l.map (fun e => e.id) = (List.range l.length).map (fun i => subId (i + 1))) ∧
    (generate_subtitles_core idOrd
      [tFrame 0 0 "www.example.com" 99 100, tFrame 1 1000 "Real subtitle" 99 100]
      ⟨1, 1⟩ ⟨1, 2⟩ ⟨false, ⟨92, 100⟩, 250, 300, true⟩).map
        (fun l => l.map (fun e => e.id)) = some ["sub-2"] := by
  refine ⟨?_, ?_, by decide⟩
  · intro ord frames fps minc cleanup l h
    rw [generate_subtitles_core] at h
    split_ifs at h with hfps
    rcases Option.some.injEq _ _ ▸ h with rfl
    by_cases hcond : cleanup.merge_similar = true ∧
        1 < (preMergeEntries ord frames fps minc cleanup).length
    · rw [if_pos hcond]
      rw [mergeAndRenumber]
      refine ⟨List.range' 1 ((preMergeEntries ord frames fps minc cleanup).foldl
        (mergeInto (effThreshold cleanup) cleanup.max_gap_ms
          cleanup.min_cue_duration_ms) []).length, ?_, ?_⟩
      · rw [renumber_ids, List.range'_eq_map_range, List.map_map]
        refine List.map_congr_left ?_
        intro i _
        show subId (i + 1) = subId (1 + i)
        rw [Nat.add_comm]
      · exact (List.pairwise_lt_range' 1 _).chain'
    · rw [if_neg hcond]
      exact preMerge_ids ord frames fps minc cleanup
  · intro ord frames fps minc cleanup l hms hlen h
    rw [generate_subtitles_core] at h
    split_ifs at h with hfps
    rcases Option.some.injEq _ _ ▸ h with rfl
    rw [if_pos ⟨hms, hlen⟩, mergeAndRenumber, renumber_ids, renumber_length]

/-- The output of the concrete C10 witness run. -/
def c10wOut : List OcrSubtitleEntry :=
  [{ id := "sub-1", text := "abcdefgh".toList, start_time := 0, end_time := 1000,
     confidence := ⟨90, 100⟩ },
   { id := "sub-2", text := "stuvwxyz".toList, start_time := 1000, end_time := 2000,
     confidence := ⟨90, 100⟩ }]

/-- C10 witness: a merge-enabled run with two surviving pre-merge entries gets
the consecutive ids `sub-1`, `sub-2`. -/
theorem c10_entry_ids_witness :
    (1 < (preMergeEntries idOrd
      [tFrame 0 0 "abcdefgh" 90 100, tFrame 1 1000 "stuvwxyz" 90 100] ⟨1, 1⟩ ⟨1, 2⟩
      ⟨true, ⟨92, 100⟩, 250, 500, false⟩).length) ∧
    c10wOut.map (fun e => e.id) =
      (List.range c10wOut.length).map (fun i => subId (i + 1)) :=
  ⟨by decide, c10_entry_ids.2.1 idOrd
    [tFrame 0 0 "abcdefgh" 90 100, tFrame 1 1000 "stuvwxyz" 90 100] ⟨1, 1⟩ ⟨1, 2⟩
    ⟨true, ⟨92, 100⟩, 250, 500, false⟩ c10wOut rfl (by decide) (by decide)⟩

/-- C10 counterexample: with merging disabled and nothing filtered, a run
still produces the consecutive id sequence `sub-1 .. sub-n`, so consecutive
numbering does not hold *exactly when* the merge step runs. -/
theorem c10_ids_counterexample :
    (generate_subtitles_core idOrd [tFrame 0 0 "Hello there" 99 100] ⟨1, 1⟩ ⟨1, 2⟩
      ⟨false, ⟨92, 100⟩, 250, 500, true⟩).map (fun l => l.map (fun e => e.id)) =
      some ["sub-1"] ∧
    ["sub-1"] = (List.range 1).map (fun i => subId (i + 1)) ∧
    (⟨false, ⟨92, 100⟩, 250, 500, true⟩ : OcrSubtitleCleanupOptions).merge_similar = false := by
  refine ⟨by decide, by decide, rfl⟩

/-- Ordered-by-start and non-overlapping consecutive entries. -/
def entriesNonOverlapping (l : List OcrSubtitleEntry) : Prop :=
  l.Chain' (fun a b => a.end_time ≤ b.start_time)

/-- C1 counterexample: with an irregular sampling pattern the inferred median
step (1000 ms) pushes the first entry's end time (2000) past the second
entry's start time (1100), and the merge pass keeps both dissimilar entries,
so the final output overlaps. -/
theorem c1_nonoverlap_counterexample :
    generate_subtitles_core idOrd
      [tFrame 0 0 "abcdefgh" 95 100, tFrame 1 1000 "abcdefgh" 95 100,
       tFrame 2 1100 "zzzzzzzz" 95 100] ⟨2, 1⟩ ⟨1, 2⟩
      ⟨true, ⟨92, 100⟩, 1000, 500, false⟩ =
      some [⟨"sub-1", "abcdefgh".toList, 0, 2000, ⟨95, 100⟩⟩,
            ⟨"sub-2", "zzzzzzzz".toList, 1100, 2100, ⟨95, 100⟩⟩] ∧
    ¬ entriesNonOverlapping
      [⟨"sub-1", "abcdefgh".toList, 0, 2000, ⟨95, 100⟩⟩,
       ⟨"sub-2", "zzzzzzzz".toList, 1100, 2100, ⟨95, 100⟩⟩] := by
  constructor
  · decide
  · intro h
    rw [entriesNonOverlapping, List.chain'_cons] at h
    have h2 : (2000 : Nat) ≤ 1100 := h.1
    omega

/-- The start times held by a stabilizer state, closed segments first. -/
def stateStarts (st : StabState) : List Nat :=
  st.segments.map (fun s => s.start_time) ++
    (match st.current with
     | none => []
     | some s => [s.start_time])

/-- One stabilizer step either keeps the recorded start times or appends the
current frame's time (when it opens a new segment). -/
theorem stabilizeStep_starts (ms : Bool) (τ : Q) (maxGap : Nat) (minConf : Q)
    (f : OcrFrameResult) (n1 n2 : Option OcrFrameResult) (st : StabState) :
    stateStarts (stabilizeStep ms τ maxGap minConf f n1 n2 st) = stateStarts st ∨
    stateStarts (stabilizeStep ms τ maxGap minConf f n1 n2 st) =
      stateStarts st ++ [f.time_ms] := by
  rcases st with ⟨segs, cur⟩
  cases cur with
  | none =>
    rw [stabilizeStep]
    dsimp only
    split_ifs
    · right
      simp [stateStarts, newSegmentOf]
    · left
      rfl
  | some seg =>
    rw [stabilizeStep]
    dsimp only
    split_ifs <;>
      first
        | (left; simp [stateStarts, newSegmentOf, List.map_append]; done)
        | (right; simp [stateStarts, newSegmentOf, List.map_append,
            List.append_assoc]; done)

/-- If every recorded start is at most `t` and `t` is at most the frame time,
every start recorded after one stabilizer step is at most the frame time. -/
theorem stabilizeStep_starts_le (ms : Bool) (τ : Q) (maxGap : Nat) (minConf : Q)
    (f : OcrFrameResult) (n1 n2 : Option OcrFrameResult) (st : StabState) (t : Nat)
    (hb : ∀ x ∈ stateStarts st, x ≤ t) (ht : t ≤ f.time_ms) :
    ∀ x ∈ stateStarts (stabilizeStep ms τ maxGap minConf f n1 n2 st), x ≤ f.time_ms := by
  rcases stabilizeStep_starts ms τ maxGap minConf f n1 n2 st with h | h <;> rw [h]
  · exact fun x hx => le_trans (hb x hx) ht
  · intro x hx
    rcases List.mem_append.mp hx with hx | hx
    · exact le_trans (hb x hx) ht
    · have hx' := List.mem_singleton.mp hx
      subst hx'
      exact Nat.le_refl _

/-- One stabilizer step keeps the recorded starts sorted when every previous
start is at most the frame time. -/
theorem stabilizeStep_starts_sorted (ms : Bool) (τ : Q) (maxGap : Nat) (minConf : Q)
    (f : OcrFrameResult) (n1 n2 : Option OcrFrameResult) (st : StabState)
    (hp : List.Pairwise (fun a b => a ≤ b) (stateStarts st))
    (hb : ∀ x ∈ stateStarts st, x ≤ f.time_ms) :
    List.Pairwise (fun a b => a ≤ b)
      (stateStarts (stabilizeStep ms τ maxGap minConf f n1 n2 st)) := by
  rcases stabilizeStep_starts ms τ maxGap minConf f n1 n2 st with h | h <;> rw [h]
  · exact hp
  · refine List.pairwise_append.mpr ⟨hp, List.pairwise_singleton _ _, ?_⟩
    intro x hx y hy
    have hy' := List.mem_singleton.mp hy
    subst hy'
    exact hb x hx

/-- Over frames with non-decreasing times, the stabilizer loop keeps the
recorded starts sorted, starting from a state whose starts are sorted and
below every remaining frame time. -/
theorem stabilizeLoop_starts_sorted (ms : Bool) (τ : Q) (maxGap : Nat) (minConf : Q) :
    ∀ (frames : List OcrFrameResult) (st : StabState),
      List.Pairwise (fun a b => a.time_ms ≤ b.time_ms) frames →
      List.Pairwise (fun a b => a ≤ b) (stateStarts st) →
      (∀ x ∈ stateStarts st, ∀ g ∈ frames, x ≤ g.time_ms) →
      List.Pairwise (fun a b => a ≤ b)
        (stateStarts (stabilizeLoop ms τ maxGap minConf frames st)) := by
  intro frames
  induction frames with
  | nil => exact fun st _ hp _ => hp
  | cons f rest ih =>
    intro st hf hp hb
    rw [stabilizeLoop]
    rcases List.pairwise_cons.mp hf with ⟨hfr, hrest⟩
    refine ih _ hrest ?_ ?_
    · exact stabilizeStep_starts_sorted ms τ maxGap minConf f rest.head? (rest.drop 1).head? st hp
        (fun x hx => hb x hx f (List.mem_cons_self f rest))
    · intro x hx g hg
      rcases stabilizeStep_starts ms τ maxGap minConf f rest.head? (rest.drop 1).head? st
        with h | h
      · rw [h] at hx
        exact hb x hx g (List.mem_cons_of_mem f hg)
      · rw [h] at hx
        rcases List.mem_append.mp hx with hx | hx
        · exact hb x hx g (List.mem_cons_of_mem f hg)
        · have hx' := List.mem_singleton.mp hx
          subst hx'
          exact hfr g hg

/-- The start times of the closed segments are exactly the recorded starts of
the final loop state. -/
theorem stabilize_map_start (ms : Bool) (τ : Q) (maxGap : Nat) (minConf : Q)
    (frames : List OcrFrameResult) :
    (stabilize ms τ maxGap minConf frames).map (fun s => s.start_time) =
      stateStarts (stabilizeLoop ms τ maxGap minConf frames ⟨[], none⟩) := by
  rw [stabilize, stateStarts]
  cases (stabilizeLoop ms τ maxGap minConf frames ⟨[], none⟩).current with
  | none => simp
  | some seg => simp

/-- The start times of the built entries form a sublist of the accumulated
starts followed by the segment starts. -/
theorem buildFold_starts (ord : List GroupStat → List GroupStat) (step : Option Nat) (fps : Q) :
    ∀ (segs : List SubtitleSegment) (acc : List OcrSubtitleEntry),
      ((segs.foldl (buildStep ord step fps) acc).map (fun e => e.start_time)).Sublist
        (acc.map (fun e => e.start_time) ++ segs.map (fun s => s.start_time)) := by
  intro segs
  induction segs with
  | nil => intro acc; simp
  | cons seg rest ih =>
    intro acc
    rw [List.foldl_cons]
    refine (ih (buildStep ord step fps acc seg)).trans ?_
    rw [List.map_cons]
    cases hsel : select_segment_text ord seg.candidates with
    | none =>
      rw [show buildStep ord step fps acc seg = acc from by rw [buildStep, hsel]]
      exact List.Sublist.append_left ((List.Sublist.refl _).cons _) _
    | some sel =>
      rw [show buildStep ord step fps acc seg =
          acc ++ [{ id := subId (acc.length + 1)
                    text := sel.1
                    start_time := seg.start_time
                    end_time := segment_end_time_ms seg.start_time seg.last_seen_time
                      seg.last_seen_frame_index step fps
                    confidence := sel.2 }] from by rw [buildStep, hsel]]
      rw [List.map_append, List.append_assoc]
      exact List.Sublist.refl _

/-- One merge-scan step keeps the accumulated start times, or appends the
incoming entry's start time. -/
theorem mergeInto_starts (τ : Q) (maxGap minCue : Nat) (merged : List OcrSubtitleEntry)
    (sub : OcrSubtitleEntry) :
    (mergeInto τ maxGap minCue merged sub).map (fun e => e.start_time) =
      merged.map (fun e => e.start_time) ∨
    (mergeInto τ maxGap minCue merged sub).map (fun e => e.start_time) =
      merged.map (fun e => e.start_time) ++ [sub.start_time] := by
  rw [mergeInto]
  cases hl : merged.getLast? with
  | none => right; simp
  | some prev =>
    dsimp only
    have hleft : ∀ e : OcrSubtitleEntry, e.start_time = prev.start_time →
        (merged.dropLast ++ [e]).map (fun x => x.start_time) =
          merged.map (fun x => x.start_time) := by
      intro e he
      have hne : merged ≠ [] := by
        intro h
        rw [h] at hl
        simp at hl
      have hprev : merged.getLast hne = prev := by
        have h2 := List.getLast?_eq_getLast merged hne
        rw [hl] at h2
        exact (Option.some.inj h2).symm
      conv_rhs => rw [← List.dropLast_append_getLast hne, hprev]
      simp only [List.map_append, List.map_singleton, he]
    split_ifs <;>
      first
        | exact Or.inl (hleft _ rfl)
        | (right; simp)

/-- The start times after the merge scan form a sublist of the accumulated
starts followed by the input starts. -/
theorem mergeFold_starts (τ : Q) (maxGap minCue : Nat) :
    ∀ (l acc : List OcrSubtitleEntry),
      ((l.foldl (mergeInto τ maxGap minCue) acc).map (fun e => e.start_time)).Sublist
        (acc.map (fun e => e.start_time) ++ l.map (fun e => e.start_time)) := by
  intro l
  induction l with
  | nil => intro acc; simp
  | cons sub rest ih =>
    intro acc
    rw [List.foldl_cons]
    refine (ih (mergeInto τ maxGap minCue acc sub)).trans ?_
    rw [List.map_cons]
    rcases mergeInto_starts τ maxGap minCue acc sub with h | h <;> rw [h]
    · exact List.Sublist.append_left ((List.Sublist.refl _).cons _) _
    · rw [List.append_assoc]
      exact List.Sublist.refl _

/-- Renumbering from any index keeps the start times. -/
theorem enumFrom_starts (l : List OcrSubtitleEntry) :
    ∀ (n : Nat),
      ((List.enumFrom n l).map
          (fun p => ({ p.2 with id := subId (p.1 + 1) } : OcrSubtitleEntry))).map
        (fun e => e.start_time) = l.map (fun e => e.start_time) := by
  induction l with
  | nil => intro n; rfl
  | cons e rest ih =>
    intro n
    rw [List.enumFrom, List.map_cons, List.map_cons, List.map_cons, ih (n + 1)]

/-- Renumbering keeps the start times. -/
theorem renumber_starts (l : List OcrSubtitleEntry) :
    (renumber l).map (fun e => e.start_time) = l.map (fun e => e.start_time) := by
  rw [renumber, List.enum]
  exact enumFrom_starts l 0

/-- C1. Corrected claim: for inputs whose frame times are non-decreasing in
input order, the entry list returned by `generate_subtitles_core` (after the
merge pass when it runs) is ordered by non-decreasing `start_time`; the
non-overlap half of the original claim fails (see the counterexample, where a
large inferred median step pushes an entry's end time past its successor's
start time). -/
theorem c1_start_order_amended (ord : List GroupStat → List GroupStat)
    (frames : List OcrFrameResult) (fps minConfidence : Q)
    (cleanup : OcrSubtitleCleanupOptions) (l : List OcrSubtitleEntry)
    (hf : List.Pairwise (fun a b => a.time_ms ≤ b.time_ms) frames)
    (hg : generate_subtitles_core ord frames fps minConfidence cleanup = some l) :
    List.Pairwise (fun a b => a.start_time ≤ b.start_time) l := by
  have hsegs : List.Pairwise (fun a b => a ≤ b)
      ((stabilizedSegments frames minConfidence cleanup).map (fun s => s.start_time)) := by
    rw [stabilizedSegments, stabilize_map_start]
    refine stabilizeLoop_starts_sorted _ _ _ _ frames ⟨[], none⟩ hf List.Pairwise.nil ?_
    intro x hx
    simp [stateStarts] at hx
  have hbuild : ((buildEntries ord
        (infer_frame_step_ms (frames.map (fun f => f.time_ms))) fps
        (stabilizedSegments frames minConfidence cleanup)).map
          (fun e => e.start_time)).Sublist
      ((stabilizedSegments frames minConfidence cleanup).map (fun s => s.start_time)) := by
    have h := buildFold_starts ord (infer_frame_step_ms (frames.map (fun f => f.time_ms))) fps
      (stabilizedSegments frames minConfidence cleanup) []
    rw [buildEntries_eq]
    simpa using h
  have hpre : List.Pairwise (fun a b => a ≤ b)
      ((preMergeEntries ord frames fps minConfidence cleanup).map (fun e => e.start_time)) := by
    rw [preMergeEntries]
    split_ifs
    · exact List.Pairwise.sublist
        (List.Sublist.map _ (List.filter_sublist _)) (List.Pairwise.sublist hbuild hsegs)
    · exact List.Pairwise.sublist hbuild hsegs
  by_cases hfps : Q.ble fps ⟨0, 1⟩ = true
  · rw [generate_subtitles_core, if_pos hfps] at hg
    exact Option.noConfusion hg
  · rw [generate_subtitles_core, if_neg hfps] at hg
    have hg2 : (if cleanup.merge_similar ∧
          1 < (preMergeEntries ord frames fps minConfidence cleanup).length then
        mergeAndRenumber (effThreshold cleanup) cleanup.max_gap_ms
          cleanup.min_cue_duration_ms (preMergeEntries ord frames fps minConfidence cleanup)
      else preMergeEntries ord frames fps minConfidence cleanup) = l :=
      Option.some.inj hg
    by_cases hm : cleanup.merge_similar ∧
        1 < (preMergeEntries ord frames fps minConfidence cleanup).length
    · rw [if_pos hm] at hg2
      subst hg2
      refine List.pairwise_map.mp ?_
      rw [mergeAndRenumber, renumber_starts]
      refine List.Pairwise.sublist ?_ hpre
      have h := mergeFold_starts (effThreshold cleanup) cleanup.max_gap_ms
        cleanup.min_cue_duration_ms (preMergeEntries ord frames fps minConfidence cleanup) []
      simpa using h
    · rw [if_neg hm] at hg2
      subst hg2
      exact List.pairwise_map.mp hpre

/-- C1 witness: the amended ordering theorem instantiated on the overlapping
run, whose frame times 0, 1000, 1100 are non-decreasing. -/
theorem c1_start_order_witness :
    List.Pairwise (fun a b => a.time_ms ≤ b.time_ms)
      [tFrame 0 0 "abcdefgh" 95 100, tFrame 1 1000 "abcdefgh" 95 100,
       tFrame 2 1100 "zzzzzzzz" 95 100] ∧
    generate_subtitles_core idOrd
      [tFrame 0 0 "abcdefgh" 95 100, tFrame 1 1000 "abcdefgh" 95 100,
       tFrame 2 1100 "zzzzzzzz" 95 100] ⟨2, 1⟩ ⟨1, 2⟩
      ⟨true, ⟨92, 100⟩, 1000, 500, false⟩ =
      some [⟨"sub-1", "abcdefgh".toList, 0, 2000, ⟨95, 100⟩⟩,
            ⟨"sub-2", "zzzzzzzz".toList, 1100, 2100, ⟨95, 100⟩⟩] ∧
    List.Pairwise (fun a b => a.start_time ≤ b.start_time)
      [(⟨"sub-1", "abcdefgh".toList, 0, 2000, ⟨95, 100⟩⟩ : OcrSubtitleEntry),
       (⟨"sub-2", "zzzzzzzz".toList, 1100, 2100, ⟨95, 100⟩⟩ : OcrSubtitleEntry)] :=
  ⟨by decide, by decide,
    c1_start_order_amended idOrd
      [tFrame 0 0 "abcdefgh" 95 100, tFrame 1 1000 "abcdefgh" 95 100,
       tFrame 2 1100 "zzzzzzzz" 95 100] ⟨2, 1⟩ ⟨1, 2⟩
      ⟨true, ⟨92, 100⟩, 1000, 500, false⟩
      [⟨"sub-1", "abcdefgh".toList, 0, 2000, ⟨95, 100⟩⟩,
       ⟨"sub-2", "zzzzzzzz".toList, 1100, 2100, ⟨95, 100⟩⟩]
      (by decide) (by decide)⟩
